import Mathlib

/-!
Verification development for the medman duplicate-media manager.

Shallow embedding of the core modules:
* `src/hashing.py`   — fingerprints, SHA-256 digests, perceptual hashes,
  `compare_video_hashes`;
* `src/clustering.py` — `UnionFind`, `cluster_images`, `cluster_videos`,
  `handle_image_cluster`, `handle_video_cluster`;
* `src/web_app.py`   — scan state, `start_scan`, `handle_decision`,
  `undo_decision`;
* `src/main.py`      — threshold validation in `main`.

Modelling conventions:
* File paths are `String`s; the file system is a map
  `String → Option (List Nat)` from a path to the bytes stored there
  (`none` = unreadable/absent).
* The cryptographic primitives (MD5 of the 64 KiB boundaries, SHA-256 of
  the full content) are arbitrary deterministic functions of the bytes,
  carried as fields of `Env`; no theorem below assumes anything about them
  beyond determinism, which matches what the Python code guarantees.
* Perceptual hashes of images are 64-bit values modelled as `Nat`; the
  `imagehash` subtraction operator returns the Hamming distance of the two
  bit vectors, modelled as the population count of the XOR.
* Python dictionaries keyed by path/fingerprint/digest are modelled as
  association lists in insertion order (`groupPairs` is exactly the
  `dict.setdefault(key, []).append(...)` loop); iterating over
  `dict.items()` of results keyed by the input paths is modelled by
  processing the input list in order with duplicates removed
  (`dedupF`), which is the deterministic aggregation the scheduler
  contract of the code promises.
* Python floats are modelled as `ℚ` (all similarity arithmetic in the
  source is exact in the dyadic range used here).
* `UnionFind.find` in the source recurses along the parent chain; the
  Lean model gives the recursion explicit fuel (`bound`), an upper bound
  on every chain length maintained by the operations.  `bound` is a
  termination device only: it is not observable in any result.
-/

namespace Medman

/-! ### Perceptual-hash arithmetic (src/hashing.py) -/

/-- Number of set bits, used as the Hamming weight of a 64-bit hash. -/
def popCount (n : Nat) : Nat := n.bits.count true

/-- Hamming distance between two hashes (`h1 - h2` on `imagehash` values). -/
def hammingDist (h1 h2 : Nat) : Nat := popCount (h1 ^^^ h2)

/-- Image similarity `1 - (h1 - h2) / 64.0` from `cluster_images`. -/
def imageSim (h1 h2 : Nat) : ℚ := 1 - (hammingDist h1 h2 : ℚ) / 64

/-- `compare_video_hashes` (src/hashing.py lines 102-108): zip the two
frame-hash sequences, average the Hamming distances over the zipped
pairs, similarity is `1 - sum/(64*total)` clamped at 0; an empty side
gives `0.0`. -/
def compare_video_hashes (hashes1 hashes2 : List Nat) : ℚ :=
  if hashes1 = [] ∨ hashes2 = [] then 0
  else
    let total : Nat := min hashes1.length hashes2.length
    let diffs : List Nat := (hashes1.zip hashes2).map (fun ab => hammingDist ab.1 ab.2)
    max 0 (1 - (diffs.sum : ℚ) / (64 * (total : ℚ)))

/-- Mean of the per-pair normalized Hamming distances over the first
`min len1 len2` aligned pairs, as the spec (§4.3) words it. -/
def meanNormalizedDistance (h1 h2 : List Nat) : ℚ :=
  (((h1.zip h2).map (fun ab => (hammingDist ab.1 ab.2 : ℚ) / 64)).sum) /
    ((min h1.length h2.length : Nat) : ℚ)

/-- Video similarity as the spec describes it (for comparison with the
code's `compare_video_hashes`). -/
def videoSimSpec (h1 h2 : List Nat) : ℚ :=
  if h1 = [] ∨ h2 = [] then 0 else max 0 (1 - meanNormalizedDistance h1 h2)

/-! ### Disjoint-set structure (src/clustering.py lines 10-20)

The Python `find` is
```
def find(self, x):
    if self.parent.setdefault(x, x) != x:
        self.parent[x] = self.find(self.parent[x])
    return self.parent[x]
```
A missing key behaves as a self-parented node, so the parent dictionary
is modelled as a total function that is the identity outside the touched
set.  The recursion is given fuel `bound + 1`; `bound` over-approximates
the length of every parent chain (0 initially, +1 per `union`). -/

/-- `find` with explicit fuel: follow parents, then path-compress `x`
straight to the returned root. -/
def findAux {α : Type} [DecidableEq α] : Nat → (α → α) → α → α × (α → α)
  | 0, p, x => (x, p)
  | n + 1, p, x =>
    if p x = x then (x, p)
    else
      let r := findAux n p (p x)
      (r.1, Function.update r.2 x r.1)

structure UnionFind (α : Type) where
  parent : α → α
  bound : Nat

def UnionFind.empty {α : Type} : UnionFind α := ⟨id, 0⟩

/-- `find`, returning the root together with the compressed structure. -/
def UnionFind.findS {α : Type} [DecidableEq α] (u : UnionFind α) (x : α) :
    α × UnionFind α :=
  let r := findAux (u.bound + 1) u.parent x
  (r.1, ⟨r.2, u.bound⟩)

def UnionFind.find {α : Type} [DecidableEq α] (u : UnionFind α) (x : α) : α :=
  (u.findS x).1

/-- `union(x, y)`: find both roots, repoint `y`'s root at `x`'s root. -/
def UnionFind.union {α : Type} [DecidableEq α] (u : UnionFind α) (x y : α) :
    UnionFind α :=
  let fx := u.findS x
  let fy := fx.2.findS y
  if fx.1 = fy.1 then fy.2
  else ⟨Function.update fy.2.parent fy.1 fx.1, fy.2.bound + 1⟩

/-- The canonical root of `x`: iterate the parent map `bound` times.
Under the chain-length invariant this is the fixed point `find` returns. -/
def UnionFind.rootD {α : Type} (u : UnionFind α) (x : α) : α :=
  u.parent^[u.bound] x

/-- Invariant: every parent chain reaches a fixed point within `bound`
steps. -/
def UnionFind.Inv {α : Type} (u : UnionFind α) : Prop :=
  ∀ x, u.parent (u.parent^[u.bound] x) = u.parent^[u.bound] x

def applyUnions {α : Type} [DecidableEq α] (u : UnionFind α)
    (ops : List (α × α)) : UnionFind α :=
  ops.foldl (fun u xy => u.union xy.1 xy.2) u

/-- The structure obtained from a fresh `UnionFind()` by a sequence of
`union` calls. -/
def buildUF {α : Type} [DecidableEq α] (ops : List (α × α)) : UnionFind α :=
  applyUnions UnionFind.empty ops

/-- `x` is a fixed point of the parent map, i.e. a root. -/
def IsFix {α : Type} (p : α → α) (x : α) : Prop := p x = x

/-- The parent chain from `x` reaches the root `r`. -/
def Rooted {α : Type} (p : α → α) (x r : α) : Prop :=
  (∃ k, p^[k] x = r) ∧ p r = r

/-- `x` and `y` are in the same equivalence class. -/
def UnionFind.Rel {α : Type} (u : UnionFind α) (x y : α) : Prop :=
  u.rootD x = u.rootD y

/-! ### Dictionary-as-association-list helpers -/

/-- `dict.setdefault(k, []).append(v)`: append `v` to the group of the
first entry keyed `k`, or add a new group at the end. -/
def insertKV {κ α : Type} [DecidableEq κ] :
    List (κ × List α) → κ → α → List (κ × List α)
  | [], k, v => [(k, [v])]
  | (k', vs) :: rest, k, v =>
    if k = k' then (k', vs ++ [v]) :: rest else (k', vs) :: insertKV rest k v

/-- Group an association list by key, preserving insertion order of keys
and of values — the semantics of the `setdefault`/`append` loops in the
source. -/
def groupPairs {κ α : Type} [DecidableEq κ] (l : List (κ × α)) :
    List (κ × List α) :=
  l.foldl (fun acc kv => insertKV acc kv.1 kv.2) []

/-- All values carried by key `k` in an association list, in order. -/
def keyValues {κ α : Type} [DecidableEq κ] (l : List (κ × α)) (k : κ) :
    List α :=
  l.filterMap (fun kv => if kv.1 = k then some kv.2 else none)

/-- Look up the group of key `k` in a grouped list (empty if absent). -/
def lookupGroup {κ α : Type} [DecidableEq κ] (gs : List (κ × List α)) (k : κ) :
    List α :=
  ((gs.find? (fun g => decide (g.1 = k))).map (fun g => g.2)).getD []

/-- Dictionary lookup `l[k]` on an association list. -/
def lookupA {κ β : Type} [DecidableEq κ] (l : List (κ × β)) (k : κ) :
    Option β :=
  (l.find? (fun kv => decide (kv.1 = k))).map (fun kv => kv.2)

/-- Remove duplicates keeping first occurrences (a `dict` keyed by the
elements retains the first insertion position). -/
def dedupF {α : Type} [DecidableEq α] (l : List α) : List α :=
  l.foldl (fun acc p => if p ∈ acc then acc else acc ++ [p]) []

/-! ### The environment: file system and external primitives -/

/-- Static inputs of one run: the readable bytes at each path, the
cryptographic hash primitives, the perceptual hashers, the metadata-based
quality scores and the destination-path computation of
`move_to_duplicates`.  All are arbitrary; theorems assume nothing about
them beyond what the claims state. -/
structure Env where
  content : String → Option (List Nat)
  md5Fn : List Nat → String
  shaFn : List Nat → String
  phash : String → Option Nat
  vhash : String → Nat → List Nat
  scoreImg : String → ℚ
  scoreVid : String → ℚ
  moveDest : String → String → String

/-- `get_file_fingerprint` (src/hashing.py lines 10-35):
`(size, md5 of first 64 KiB, md5 of last 64 KiB)`; size-0 files get the
sentinel `(0, "", "")`; unreadable paths give `None`. -/
def get_file_fingerprint (env : Env) (path : String) :
    Option (Nat × String × String) :=
  match env.content path with
  | none => none
  | some bytes =>
    if bytes.length = 0 then some (0, "", "")
    else
      let hStart := env.md5Fn (bytes.take 65536)
      let hEnd :=
        if 65536 < bytes.length then env.md5Fn (bytes.drop (bytes.length - 65536))
        else hStart
      some (bytes.length, hStart, hEnd)

/-- `hash_file_sha256` (src/hashing.py lines 37-49): digest of the whole
content, `None` on read failure.  Chunked reading is observationally the
digest of the full byte string. -/
def hash_file_sha256 (env : Env) (path : String) : Option String :=
  (env.content path).map env.shaFn

/-! ### Clustering pipeline (src/clustering.py lines 22-148)

`cluster_images` and `cluster_videos` share all stages except the
perceptual hash and its similarity function; the stages are named so the
theorems can speak about them.  Parallel hashing stages aggregate results
keyed by path and drop failures, which is the `filterMap` below. -/

/-- Stage 1 input: fingerprints of all readable inputs, keyed by path. -/
def fingerprintList (env : Env) (paths : List String) :
    List (String × (Nat × String × String)) :=
  (dedupF paths).filterMap
    (fun p => (get_file_fingerprint env p).map (fun fp => (p, fp)))

/-- Stage 1: group paths by fingerprint (`fp_map`). -/
def fpGroupsOf (env : Env) (paths : List String) :
    List ((Nat × String × String) × List String) :=
  groupPairs ((fingerprintList env paths).map (fun pf => (pf.2, pf.1)))

/-- Stage 2 input: members of fingerprint groups of size ≥ 2 (`to_sha`). -/
def toShaOf (env : Env) (paths : List String) : List String :=
  ((fpGroupsOf env paths).filter (fun g => 1 < g.2.length)).flatMap (fun g => g.2)

/-- Stage 2: SHA-256 of the collision candidates (`sha_results`). -/
def shaResultsOf (env : Env) (paths : List String) : List (String × String) :=
  (toShaOf env paths).filterMap
    (fun p => (hash_file_sha256 env p).map (fun s => (p, s)))

/-- The exact-group key of a path: its SHA when it was hashed, else the
synthetic key `"unique_" + path`. -/
def exactKeyOf (env : Env) (paths : List String) (p : String) : String :=
  match lookupA (shaResultsOf env paths) p with
  | some s => s
  | none => "unique_" ++ p

def exactAssocOf (env : Env) (paths : List String) : List (String × String) :=
  (fingerprintList env paths).map (fun pf => (exactKeyOf env paths pf.1, pf.1))

/-- `exact_map`: paths grouped by exact key. -/
def exactGroupsOf (env : Env) (paths : List String) :
    List (String × List String) :=
  groupPairs (exactAssocOf env paths)

/-- One representative per exact group (`paths[0]`). -/
def repsOf (env : Env) (paths : List String) : List String :=
  (exactGroupsOf env paths).map (fun g => g.2.headD "")

/-- Perceptual hashes of the representatives, dropping failures/empties. -/
def percepResults {π : Type} (percep : String → Option π) (reps : List String) :
    List (String × π) :=
  reps.filterMap (fun p => (percep p).map (fun h => (p, h)))

/-- All ordered pairs `(l[i], l[j])` with `i < j`, in loop order. -/
def orderedPairs {β : Type} : List β → List (β × β)
  | [] => []
  | a :: rest => rest.map (fun b => (a, b)) ++ orderedPairs rest

/-- The pairs the comparison loop unions: those whose similarity reaches
the threshold, in loop order. -/
def simPairs {β π : Type} (simFn : π → π → ℚ) (t : ℚ) (l : List (β × π)) :
    List (β × β) :=
  (orderedPairs l).filterMap
    (fun q => if t ≤ simFn q.1.2 q.2.2 then some (q.1.1, q.2.1) else none)

/-- Stage 4: the nested `for i / for j in range(i+1, n)` comparison loop,
unioning every pair at similarity ≥ threshold. -/
def comparePass {π : Type} (simFn : π → π → ℚ) (t : ℚ) :
    List (String × π) → UnionFind String → UnionFind String
  | [], u => u
  | ph :: rest, u =>
    comparePass simFn t rest
      (rest.foldl (fun u q => if t ≤ simFn ph.2 q.2 then u.union ph.1 q.1 else u) u)

/-- Stage 5: accumulate each exact group under the equivalence root of
its representative, keep the groups with more than one member. -/
def buildClustersOf (env : Env) (paths : List String) (u : UnionFind String) :
    List (List String) :=
  let ra :=
    (exactGroupsOf env paths).foldl
      (fun acc g =>
        let f := acc.2.findS (g.2.headD "")
        (acc.1 ++ [(f.1, g.2)], f.2))
      (([] : List (String × List String)), u)
  ((groupPairs ra.1).map (fun g => g.2.flatten)).filter (fun c => 1 < c.length)

/-- The association `root of representative ↦ exact group` that stage 5
builds; `buildClustersOf` is proved to compute it (the threaded `find`
calls return these roots and only compress paths). -/
def rootAssocOf (env : Env) (paths : List String) (u : UnionFind String) :
    List (String × List String) :=
  (exactGroupsOf env paths).map (fun g => (u.rootD (g.2.headD ""), g.2))

def clusterCore {π : Type} (env : Env) (percep : String → Option π)
    (simFn : π → π → ℚ) (paths : List String) (threshold : ℚ) :
    List (List String) :=
  let pr := percepResults percep (repsOf env paths)
  buildClustersOf env paths (comparePass simFn threshold pr UnionFind.empty)

/-- `cluster_images` (src/clustering.py lines 22-88). -/
def cluster_images (env : Env) (image_paths : List String) (threshold : ℚ) :
    List (List String) :=
  clusterCore env env.phash imageSim image_paths threshold

/-- `cluster_videos` (src/clustering.py lines 90-148); `hash_video_parallel`
drops empty frame-hash lists. -/
def cluster_videos (env : Env) (video_paths : List String) (threshold : ℚ)
    (sample_count : Nat) : List (List String) :=
  clusterCore env
    (fun p => let l := env.vhash p sample_count; if l.isEmpty then none else some l)
    compare_video_hashes video_paths threshold

/-! ### File moves and the cluster handlers (src/clustering.py lines 153-284) -/

/-- SHA of a path against the *current* file-system map (files may have
been moved since clustering). -/
def shaOf (env : Env) (fs : String → Option (List Nat)) (p : String) :
    Option String :=
  (fs p).map env.shaFn

/-- Effect of `shutil.move src dest` on the file-system map. -/
def fsMove (fs : String → Option (List Nat)) (src dest : String) :
    String → Option (List Nat) :=
  fun q => if q = dest then fs src else if q = src then none else fs q

/-- `move_to_duplicates` (src/move_files.py): compute the destination and
move the file there, returning the new path. -/
def move_to_duplicates (env : Env) (fs : String → Option (List Nat))
    (path dupdir : String) : String × (String → Option (List Nat)) :=
  let dest := env.moveDest dupdir path
  (dest, fsMove fs path dest)

/-- Runtime failures of the handlers.  `nameErrorThreshold` is the
`NameError` raised by `if sim < threshold:` in `handle_image_cluster` /
`handle_video_cluster` (src/clustering.py lines 180 and 247): `threshold`
is bound neither in the function, nor as a parameter, nor at module
level in `clustering.py`, so evaluating the comparison raises. -/
inductive RunErr
  | nameErrorThreshold
  | indexError
  | moveError
deriving DecidableEq

/-- Observable actions of a handler run: each `print_action(tag, src, dest)`
paired with its move. -/
inductive Event
  | moved (tag : String) (src dest : String)
deriving DecidableEq

/-- Stable insertion of `a` into a list ordered by `le`. -/
def insertOrd {α : Type} (le : α → α → Bool) (a : α) : List α → List α
  | [] => [a]
  | b :: l => if le a b then a :: b :: l else b :: insertOrd le a l

/-- Insertion sort; with a total order it returns the same list as
Python's `sorted`. -/
def sortL {α : Type} (le : α → α → Bool) (l : List α) : List α :=
  l.foldr (insertOrd le) []

/-- Lexicographic comparison of strings by Unicode code point, exactly
Python's `<` on `str`. -/
def strLt : List Char → List Char → Bool
  | [], [] => false
  | [], _ :: _ => true
  | _ :: _, [] => false
  | c :: cs, d :: ds =>
    if c.toNat < d.toNat then true
    else if d.toNat < c.toNat then false
    else strLt cs ds

/-- Descending comparison of `(score, path)` pairs, i.e. Python's
`sorted(..., reverse=True)` order on tuples. -/
def scoredGe (a b : ℚ × String) : Bool :=
  decide (b.1 < a.1) || (decide (a.1 = b.1) && !strLt a.2.data b.2.data)

/-- The `for other in others:` loop shared by `handle_image_cluster` and
`handle_video_cluster`.  Vanished files are skipped; equal SHA moves the
other file with tag `"SHA"`; otherwise interactive mode evaluates
`sim < threshold` and raises `NameError` (the perceptual-similarity
computation before it is pure and the code after it is unreachable), and
automatic mode moves the other file with the handler's tag. -/
def handleLoop (env : Env) (dupdir : String) (interactive : Bool)
    (autoTag : String) :
    (String → Option (List Nat)) → String → List String → List Event →
      Except RunErr ((String → Option (List Nat)) × List Event)
  | fs, _, [], evs => .ok (fs, evs)
  | fs, best, other :: rest, evs =>
    if (fs best).isNone ∨ (fs other).isNone then
      handleLoop env dupdir interactive autoTag fs best rest evs
    else
      let shaBest := shaOf env fs best
      let shaOther := shaOf env fs other
      if shaBest.isSome ∧ shaBest = shaOther then
        let md := move_to_duplicates env fs other dupdir
        handleLoop env dupdir interactive autoTag md.2 best rest
          (evs ++ [Event.moved "SHA" other md.1])
      else if interactive then Except.error RunErr.nameErrorThreshold
      else
        let md := move_to_duplicates env fs other dupdir
        handleLoop env dupdir interactive autoTag md.2 best rest
          (evs ++ [Event.moved autoTag other md.1])

/-- `handle_image_cluster` (src/clustering.py lines 153-221): sort by
`(score_image(p), p)` descending, best first, then process the rest.
An empty cluster raises `IndexError` at `scored[0]`.  The display-only
`cluster_index`/`cluster_total` arguments carry no semantics. -/
def handle_image_cluster (env : Env) (fs : String → Option (List Nat))
    (cluster : List String) (interactive : Bool) (duplicates_dir : String)
    (_cluster_index _cluster_total : Nat) :
    Except RunErr ((String → Option (List Nat)) × List Event) :=
  match sortL scoredGe (cluster.map (fun p => (env.scoreImg p, p))) with
  | [] => .error .indexError
  | sb :: others =>
    handleLoop env duplicates_dir interactive "AUTO_IMG" fs sb.2
      (others.map (fun sp => sp.2)) []

/-- `handle_video_cluster` (src/clustering.py lines 224-284), same shape
with `score_video` and tag `AUTO_VID`; `sample_count` only feeds the
perceptual hash inside the unreachable interactive branch. -/
def handle_video_cluster (env : Env) (fs : String → Option (List Nat))
    (cluster : List String) (interactive : Bool) (duplicates_dir : String)
    (_sample_count _cluster_index _cluster_total : Nat) :
    Except RunErr ((String → Option (List Nat)) × List Event) :=
  match sortL scoredGe (cluster.map (fun p => (env.scoreVid p, p))) with
  | [] => .error .indexError
  | sb :: others =>
    handleLoop env duplicates_dir interactive "AUTO_VID" fs sb.2
      (others.map (fun sp => sp.2)) []

/-! ### Web review session (src/web_app.py) -/

structure WebCluster where
  ctype : String
  files : List String
deriving DecidableEq

/-- One element of `state.history`:
`(choice, source_path, dest_path, cluster_index, cluster_files_copy)`. -/
structure HistEntry where
  choice : String
  movedPath : Option String
  destPath : Option String
  clusterIndex : Nat
  filesCopy : List String
deriving DecidableEq

/-- The mutable `ScanState` fields the review protocol touches. -/
structure WebState where
  clusters : List WebCluster
  currentIndex : Nat
  history : List HistEntry
  threshold : ℚ
  status : String
  duplicatesDir : String

def resetState : WebState :=
  { clusters := [], currentIndex := 0, history := [], threshold := 89 / 100,
    status := "idle", duplicatesDir := "" }

/-- `start_scan` (src/web_app.py lines 203-218): an invalid directory
returns an error page leaving the state alone; otherwise the state is
reset, the submitted threshold is stored unchecked and the background
scan begins. -/
def start_scan (st : WebState) (directoryOk : Bool) (threshold : ℚ) : WebState :=
  if directoryOk then { resetState with threshold := threshold, status := "scanning" }
  else st

/-- `main`'s threshold validation (src/main.py lines 593-600): an explicit
`--threshold` outside `[0,1]` is a parser error before any work; absent,
the mode default is used. -/
def LOW_THRESHOLD : ℚ := 89 / 100

def HIGH_THRESHOLD : ℚ := 95 / 100

def validate_threshold (threshold : Option ℚ) (interactive : Bool) :
    Except String ℚ :=
  match threshold with
  | some t =>
    if 0 ≤ t ∧ t ≤ 1 then .ok t
    else .error "threshold must be between 0.0 and 1.0"
  | none => .ok (if interactive then LOW_THRESHOLD else HIGH_THRESHOLD)

/-- `state.history.append(action)` followed by the length-10 cap. -/
def pushHistory (hist : List HistEntry) (e : HistEntry) : List HistEntry :=
  let h := hist ++ [e]
  if 10 < h.length then h.drop 1 else h

/-- `handle_decision` (src/web_app.py lines 280-316).  `left` moves the
right-hand file and pops it; `right` moves the left-hand file and pops
it; `skip` pops the right-hand file without moving anything; any other
choice does nothing.  Each action is recorded with a pre-pop snapshot of
the member list; when fewer than two files remain the cursor advances. -/
def handle_decision (env : Env) (fs : String → Option (List Nat))
    (st : WebState) (choice : String) :
    Except RunErr ((String → Option (List Nat)) × WebState) :=
  if st.clusters.length ≤ st.currentIndex then .ok (fs, st)
  else
    let cl := st.clusters.getD st.currentIndex ⟨"", []⟩
    match cl.files with
    | left :: right :: rest =>
      let step : Except RunErr ((String → Option (List Nat)) × Option HistEntry × List String) :=
        if choice = "left" then
          if (fs right).isNone then .error .moveError
          else
            let md := move_to_duplicates env fs right st.duplicatesDir
            .ok (md.2, some ⟨"left", some right, some md.1, st.currentIndex, cl.files⟩,
              left :: rest)
        else if choice = "right" then
          if (fs left).isNone then .error .moveError
          else
            let md := move_to_duplicates env fs left st.duplicatesDir
            .ok (md.2, some ⟨"right", some left, some md.1, st.currentIndex, cl.files⟩,
              right :: rest)
        else if choice = "skip" then
          .ok (fs, some ⟨"skip", none, none, st.currentIndex, cl.files⟩, left :: rest)
        else .ok (fs, none, cl.files)
      match step with
      | .error e => .error e
      | .ok (fs', act, files') =>
        let hist' := match act with
          | some e => pushHistory st.history e
          | none => st.history
        let clusters' := st.clusters.set st.currentIndex { cl with files := files' }
        let idx' := if files'.length < 2 then st.currentIndex + 1 else st.currentIndex
        .ok (fs', { st with clusters := clusters', currentIndex := idx', history := hist' })
    | _ => .error .indexError

/-- `undo_decision` (src/web_app.py lines 318-339): pop the most recent
history entry, restore the cursor and the recorded member-list snapshot,
and move the file back when the entry recorded a move whose destination
still exists (a failing physical move is swallowed, the logical state
stays rolled back). -/
def undo_decision (_env : Env) (fs : String → Option (List Nat))
    (st : WebState) :
    Except RunErr ((String → Option (List Nat)) × WebState) :=
  match st.history.getLast? with
  | none => .ok (fs, st)
  | some e =>
    if e.clusterIndex < st.clusters.length then
      let hist' := st.history.dropLast
      let cl := st.clusters.getD e.clusterIndex ⟨"", []⟩
      let clusters' := st.clusters.set e.clusterIndex { cl with files := e.filesCopy }
      let fs' :=
        match e.destPath, e.movedPath with
        | some d, some m =>
          if (e.choice = "left" ∨ e.choice = "right") ∧ (fs d).isSome then fsMove fs d m
          else fs
        | _, _ => fs
      let st' := { st with currentIndex := e.clusterIndex, clusters := clusters', history := hist' }
      .ok (fs', st')
    else .error .indexError

/-! ### Concrete environments used by witnesses and counterexamples -/

/-- Two readable bit-identical files `"a"` and `"b"`. -/
def envTwin : Env :=
  { content := fun p => if p = "a" ∨ p = "b" then some [7] else none
    md5Fn := fun b => toString b.sum
    shaFn := fun b => toString b.sum
    phash := fun _ => some 0
    vhash := fun _ _ => [0]
    scoreImg := fun _ => 0
    scoreVid := fun _ => 0
    moveDest := fun d p => d ++ "/" ++ p }

/-- Two readable files `"a"` and `"b"` with different content (and
different digests under `shaFn`). -/
def envDiff : Env :=
  { content := fun p => if p = "a" then some [0] else if p = "b" then some [1] else none
    md5Fn := fun b => toString b.sum
    shaFn := fun b => toString b.sum
    phash := fun _ => some 0
    vhash := fun _ _ => [0]
    scoreImg := fun _ => 0
    scoreVid := fun _ => 0
    moveDest := fun d p => d ++ "/" ++ p }

/-- The file system backing `envTwin`/`envDiff` at review time. -/
def fsTwin : String → Option (List Nat) := envTwin.content

def fsDiff : String → Option (List Nat) := envDiff.content

/-- A web session holding one two-member image cluster `[a, b]`. -/
def stPair : WebState :=
  { clusters := [⟨"image", ["a", "b"]⟩], currentIndex := 0, history := [],
    threshold := 89 / 100, status := "ready", duplicatesDir := "dup" }

/-! ## Theorems -/

/-! ### Video-signature similarity (claim C8) -/

theorem sum_map_div64 (l : List (Nat × Nat)) :
    ((l.map fun ab => (hammingDist ab.1 ab.2 : ℚ) / 64).sum) =
      ((l.map fun ab => (hammingDist ab.1 ab.2 : ℚ)).sum) / 64 := by
  induction l with
  | nil => simp
  | cons a l ih => simp [ih, add_div]

theorem cast_sum_hamming (l : List (Nat × Nat)) :
    (((l.map fun ab => hammingDist ab.1 ab.2).sum : Nat) : ℚ) =
      ((l.map fun ab => (hammingDist ab.1 ab.2 : ℚ)).sum) := by
  induction l with
  | nil => simp
  | cons a l ih => simp [ih]

/-- **C8.** `compare_video_hashes` returns 1 minus the mean of the
per-pair normalized Hamming distances over the first `min(len1, len2)`
aligned pairs, clamped to be ≥ 0; whenever either signature is empty it
returns exactly 0 (it is a total function, so no error is possible). -/
theorem compare_video_hashes_spec :
    (∀ h1 h2 : List Nat, compare_video_hashes h1 h2 = videoSimSpec h1 h2) ∧
      (∀ h1 h2 : List Nat,
        compare_video_hashes [] h2 = 0 ∧ compare_video_hashes h1 [] = 0) := by
  have main : ∀ h1 h2 : List Nat, compare_video_hashes h1 h2 = videoSimSpec h1 h2 := by
    intro h1 h2
    unfold compare_video_hashes videoSimSpec meanNormalizedDistance
    by_cases h : h1 = [] ∨ h2 = []
    · simp [h]
    · rw [if_neg h, if_neg h]
      have hz : ((((h1.zip h2).map fun ab => hammingDist ab.1 ab.2).sum : Nat) : ℚ) /
            (64 * ((min h1.length h2.length : Nat) : ℚ))
          = (((h1.zip h2).map fun ab => (hammingDist ab.1 ab.2 : ℚ) / 64).sum) /
            ((min h1.length h2.length : Nat) : ℚ) := by
        rw [sum_map_div64, div_div, cast_sum_hamming]
      exact congrArg (fun q : ℚ => max 0 (1 - q)) hz
  refine ⟨main, fun h1 h2 => ⟨?_, ?_⟩⟩
  · simp [compare_video_hashes]
  · simp [compare_video_hashes]

/-! ### Union-find theory (claim C9 and the backbone of C1/C2/C10) -/

section UnionFindTheory

variable {α : Type} [DecidableEq α]

theorem isFix_iterate {p : α → α} {r : α} (h : IsFix p r) (k : Nat) :
    p^[k] r = r :=
  Function.iterate_fixed h k

theorem rooted_unique {p : α → α} {x r₁ r₂ : α} (h₁ : Rooted p x r₁)
    (h₂ : Rooted p x r₂) : r₁ = r₂ := by
  obtain ⟨⟨i, hi⟩, f₁⟩ := h₁
  obtain ⟨⟨j, hj⟩, f₂⟩ := h₂
  rcases Nat.le_total i j with hle | hle
  · have hsplit : p^[j] x = p^[j - i] (p^[i] x) := by
      rw [← Function.iterate_add_apply]
      congr 1
      omega
    rw [hsplit, hi, isFix_iterate f₁] at hj
    exact hj
  · have hsplit : p^[i] x = p^[i - j] (p^[j] x) := by
      rw [← Function.iterate_add_apply]
      congr 1
      omega
    rw [hsplit, hj, isFix_iterate f₂] at hi
    exact hi.symm

theorem rooted_of_inv {u : UnionFind α} (h : u.Inv) (x : α) :
    Rooted u.parent x (u.rootD x) :=
  ⟨⟨u.bound, rfl⟩, h x⟩

theorem rootD_eq_of_rooted {u : UnionFind α} (h : u.Inv) {x r : α}
    (hr : Rooted u.parent x r) : u.rootD x = r :=
  rooted_unique (rooted_of_inv h x) hr

/-- Master lemma about one fuelled `find`: under the assumption that the
chain from `x` reaches a fixed point within the fuel, the call returns
the root of `x`, preserves the set of roots, preserves every rooting
relation, and does not lengthen any chain. -/
theorem findAux_spec :
    ∀ (n : Nat) (p : α → α) (x : α), (∃ k, k < n ∧ IsFix p (p^[k] x)) →
      Rooted p x (findAux n p x).1 ∧
      (∀ w, IsFix p w ↔ IsFix (findAux n p x).2 w) ∧
      (∀ z r, Rooted p z r → Rooted (findAux n p x).2 z r) ∧
      (∀ B z, IsFix p (p^[B] z) →
        IsFix (findAux n p x).2 ((findAux n p x).2^[B] z)) := by
  intro n
  induction n with
  | zero =>
    rintro p x ⟨k, hk, -⟩
    omega
  | succ n ih =>
    rintro p x ⟨k, hk, hfix⟩
    by_cases hpx : p x = x
    · have hres : findAux (n + 1) p x = (x, p) := by
        simp [findAux, hpx]
      rw [hres]
      exact ⟨⟨⟨0, rfl⟩, hpx⟩, fun w => Iff.rfl, fun z r h => h, fun B z h => h⟩
    · have hk' : ∃ k', k' < n ∧ IsFix p (p^[k'] (p x)) := by
        cases k with
        | zero => exact absurd hfix hpx
        | succ k =>
          refine ⟨k, by omega, ?_⟩
          rwa [← Function.iterate_succ_apply]
      obtain ⟨hroot, hfixiff, hrooted, hdist⟩ := ih p (p x) hk'
      have hres : findAux (n + 1) p x =
          ((findAux n p (p x)).1,
            Function.update (findAux n p (p x)).2 x (findAux n p (p x)).1) := by
        simp [findAux, hpx]
      set r := (findAux n p (p x)).1 with hr
      set p₂ := (findAux n p (p x)).2 with hp₂
      rw [hres]
      have hrfix : IsFix p r := hroot.2
      have hrne : r ≠ x := fun hEq => hpx (hEq ▸ hrfix)
      have hrfix₂ : IsFix p₂ r := (hfixiff r).mp hrfix
      have hupd_r : Function.update p₂ x r r = r := by
        rw [Function.update_noteq hrne]
        exact hrfix₂
      have hRootx : Rooted p x r := by
        obtain ⟨⟨k', hk'eq⟩, -⟩ := hroot
        exact ⟨⟨k' + 1, by rw [Function.iterate_succ_apply]; exact hk'eq⟩, hrfix⟩
      have hRootx₂ : Rooted p₂ x r := hrooted x r hRootx
      have hxnotfix₂ : ¬IsFix p₂ x := fun hEq => hpx ((hfixiff x).mpr hEq)
      have hfix' : ∀ w, IsFix p w ↔ IsFix (Function.update p₂ x r) w := by
        intro w
        by_cases hw : w = x
        · rw [hw]
          constructor
          · intro hEq; exact absurd hEq hpx
          · intro hEq
            exfalso
            have : Function.update p₂ x r x = x := hEq
            rw [Function.update_same] at this
            exact hrne this
        · have : IsFix (Function.update p₂ x r) w ↔ IsFix p₂ w := by
            unfold IsFix
            rw [Function.update_noteq hw]
          rw [this]
          exact hfixiff w
      have hroot' : ∀ (k₀ : Nat) (z r' : α), p₂^[k₀] z = r' → IsFix p₂ r' →
          Rooted (Function.update p₂ x r) z r' := by
        intro k₀
        induction k₀ with
        | zero =>
          intro z r' hz hf
          have hzr : z = r' := hz
          subst hzr
          by_cases hzx : z = x
          · exact absurd (hzx ▸ hf) hxnotfix₂
          · refine ⟨⟨0, rfl⟩, ?_⟩
            show Function.update p₂ x r z = z
            rw [Function.update_noteq hzx]
            exact hf
        | succ m ihm =>
          intro z r' hz hf
          by_cases hzx : z = x
          · rw [hzx]
            rw [hzx] at hz
            have hzr : Rooted p₂ x r' := ⟨⟨m + 1, hz⟩, hf⟩
            have hrr : r' = r := rooted_unique hzr hRootx₂
            rw [hrr]
            refine ⟨⟨1, ?_⟩, hupd_r⟩
            rw [Function.iterate_one, Function.update_same]
          · have hz' : p₂^[m] (p₂ z) = r' := by
              rwa [← Function.iterate_succ_apply]
            obtain ⟨⟨j, hj⟩, hjf⟩ := ihm (p₂ z) r' hz' hf
            refine ⟨⟨j + 1, ?_⟩, hjf⟩
            rw [Function.iterate_succ_apply, Function.update_noteq hzx]
            exact hj
      have hdist' : ∀ (B : Nat) (z : α), IsFix p₂ (p₂^[B] z) →
          IsFix (Function.update p₂ x r) ((Function.update p₂ x r)^[B] z) := by
        intro B
        induction B with
        | zero =>
          intro z hfz
          by_cases hzx : z = x
          · exact absurd (hzx ▸ hfz) hxnotfix₂
          · show Function.update p₂ x r z = z
            rw [Function.update_noteq hzx]
            exact hfz
        | succ m ihm =>
          intro z hfz
          by_cases hzx : z = x
          · rw [hzx]
            have hiter : (Function.update p₂ x r)^[m + 1] x = r := by
              rw [Function.iterate_succ_apply, Function.update_same]
              exact Function.iterate_fixed hupd_r m
            rw [hiter]
            exact hupd_r
          · have hstep : (Function.update p₂ x r)^[m + 1] z
                = (Function.update p₂ x r)^[m] (p₂ z) := by
              rw [Function.iterate_succ_apply, Function.update_noteq hzx]
            rw [hstep]
            apply ihm
            rwa [← Function.iterate_succ_apply]
      refine ⟨hRootx, hfix', ?_, ?_⟩
      · intro z r' hzr
        obtain ⟨⟨k₀, hk₀⟩, hf⟩ := hrooted z r' hzr
        exact hroot' k₀ z r' hk₀ hf
      · intro B z hfz
        exact hdist' B z (hdist B z hfz)

theorem findS_spec {u : UnionFind α} (h : u.Inv) (x : α) :
    (u.findS x).1 = u.rootD x ∧ (u.findS x).2.Inv ∧
      (∀ z, (u.findS x).2.rootD z = u.rootD z) ∧
      (u.findS x).2.bound = u.bound := by
  have hx : ∃ k, k < u.bound + 1 ∧ IsFix u.parent (u.parent^[k] x) :=
    ⟨u.bound, Nat.lt_succ_self _, h x⟩
  obtain ⟨hroot, hfixiff, hrooted, hdist⟩ := findAux_spec (u.bound + 1) u.parent x hx
  have hinv : (u.findS x).2.Inv := by
    intro z
    exact hdist u.bound z (h z)
  refine ⟨(rootD_eq_of_rooted h hroot).symm, hinv, ?_, rfl⟩
  intro z
  exact rootD_eq_of_rooted hinv (hrooted z _ (rooted_of_inv h z))

theorem find_eq_rootD {u : UnionFind α} (h : u.Inv) (x : α) :
    u.find x = u.rootD x :=
  (findS_spec h x).1

/-- Repointing the root `rb` at the root `ra` keeps every chain within
one extra step. -/
theorem update_root_inv {p : α → α} {ra rb : α} (hra : IsFix p ra)
    (hne : ra ≠ rb) :
    ∀ (B : Nat) (z : α), IsFix p (p^[B] z) →
      IsFix (Function.update p rb ra) ((Function.update p rb ra)^[B + 1] z) := by
  have hfix3 : IsFix (Function.update p rb ra) ra := by
    show Function.update p rb ra ra = ra
    rw [Function.update_noteq hne]
    exact hra
  intro B
  induction B with
  | zero =>
    intro z hfz
    by_cases hzb : z = rb
    · rw [hzb]
      have : (Function.update p rb ra)^[1] rb = ra := by
        rw [Function.iterate_one, Function.update_same]
      rw [this]
      exact hfix3
    · have : (Function.update p rb ra)^[1] z = z := by
        rw [Function.iterate_one, Function.update_noteq hzb]
        exact hfz
      rw [this]
      show Function.update p rb ra z = z
      rw [Function.update_noteq hzb]
      exact hfz
  | succ m ihm =>
    intro z hfz
    by_cases hzb : z = rb
    · rw [hzb]
      have : (Function.update p rb ra)^[m + 1 + 1] rb = ra := by
        rw [Function.iterate_succ_apply, Function.update_same]
        exact Function.iterate_fixed hfix3 (m + 1)
      rw [this]
      exact hfix3
    · have hstep : (Function.update p rb ra)^[m + 1 + 1] z
          = (Function.update p rb ra)^[m + 1] (p z) := by
        rw [Function.iterate_succ_apply, Function.update_noteq hzb]
      rw [hstep]
      apply ihm
      rwa [← Function.iterate_succ_apply]

/-- A chain ending at a root other than `rb` is untouched by the
repointing. -/
theorem rooted_update_ne {p : α → α} {rb ra : α} (hrb : IsFix p rb) :
    ∀ (k : Nat) (z r₀ : α), p^[k] z = r₀ → IsFix p r₀ → r₀ ≠ rb →
      Rooted (Function.update p rb ra) z r₀ := by
  intro k
  induction k with
  | zero =>
    intro z r₀ hz hf hne
    have hzr : z = r₀ := hz
    subst hzr
    refine ⟨⟨0, rfl⟩, ?_⟩
    show Function.update p rb ra z = z
    rw [Function.update_noteq hne]
    exact hf
  | succ m ihm =>
    intro z r₀ hz hf hne
    by_cases hzb : z = rb
    · rw [hzb] at hz
      rw [isFix_iterate hrb] at hz
      exact absurd hz.symm hne
    · have hz' : p^[m] (p z) = r₀ := by
        rwa [← Function.iterate_succ_apply]
      obtain ⟨⟨j, hj⟩, hjf⟩ := ihm (p z) r₀ hz' hf hne
      refine ⟨⟨j + 1, ?_⟩, hjf⟩
      rw [Function.iterate_succ_apply, Function.update_noteq hzb]
      exact hj

/-- A chain ending at `rb` now ends at `ra`. -/
theorem rooted_update_to {p : α → α} {rb ra : α} (hra : IsFix p ra)
    (hne : ra ≠ rb) :
    ∀ (k : Nat) (z : α), p^[k] z = rb →
      Rooted (Function.update p rb ra) z ra := by
  have hfix3 : IsFix (Function.update p rb ra) ra := by
    show Function.update p rb ra ra = ra
    rw [Function.update_noteq hne]
    exact hra
  intro k
  induction k with
  | zero =>
    intro z hz
    have hzr : z = rb := hz
    rw [hzr]
    refine ⟨⟨1, ?_⟩, hfix3⟩
    rw [Function.iterate_one, Function.update_same]
  | succ m ihm =>
    intro z hz
    by_cases hzb : z = rb
    · rw [hzb]
      refine ⟨⟨1, ?_⟩, hfix3⟩
      rw [Function.iterate_one, Function.update_same]
    · have hz' : p^[m] (p z) = rb := by
        rwa [← Function.iterate_succ_apply]
      obtain ⟨⟨j, hj⟩, hjf⟩ := ihm (p z) hz'
      refine ⟨⟨j + 1, ?_⟩, hjf⟩
      rw [Function.iterate_succ_apply, Function.update_noteq hzb]
      exact hj

/-- `union` keeps the invariant, and its effect on roots is exactly:
classes rooted at `b`'s root are repointed at `a`'s root. -/
theorem union_spec {u : UnionFind α} (h : u.Inv) (a b : α) :
    (u.union a b).Inv ∧
      ∀ z, (u.union a b).rootD z =
        if u.rootD z = u.rootD b then u.rootD a else u.rootD z := by
  obtain ⟨hfa, hia, hra, hba⟩ := findS_spec h a
  obtain ⟨hfb, hib, hrb, hbb⟩ := findS_spec hia b
  have hval_b : ((u.findS a).2.findS b).1 = u.rootD b := by
    rw [hfb, hra]
  have hroots2 : ∀ z, ((u.findS a).2.findS b).2.rootD z = u.rootD z := by
    intro z
    rw [hrb, hra]
  by_cases hc : (u.findS a).1 = ((u.findS a).2.findS b).1
  · have hu : u.union a b = ((u.findS a).2.findS b).2 := by
      unfold UnionFind.union
      rw [if_pos hc]
    have hform : ∀ z, ((u.findS a).2.findS b).2.rootD z =
        if u.rootD z = u.rootD b then u.rootD a else u.rootD z := by
      intro z
      have hab : u.rootD a = u.rootD b := by
        rw [← hfa, ← hval_b]
        exact hc
      by_cases hz : u.rootD z = u.rootD b
      · rw [if_pos hz, hroots2 z, hz, hab]
      · rw [if_neg hz, hroots2 z]
    rw [hu]
    exact ⟨hib, hform⟩
  · have hu : u.union a b =
        ⟨Function.update ((u.findS a).2.findS b).2.parent
          ((u.findS a).2.findS b).1 (u.findS a).1,
          ((u.findS a).2.findS b).2.bound + 1⟩ := by
      unfold UnionFind.union
      rw [if_neg hc]
    have hfix_ra : IsFix ((u.findS a).2.findS b).2.parent (u.findS a).1 := by
      have := rooted_of_inv hib a
      rw [hroots2 a, ← hfa] at this
      exact this.2
    have hfix_rb : IsFix ((u.findS a).2.findS b).2.parent ((u.findS a).2.findS b).1 := by
      have := rooted_of_inv hib b
      rw [hroots2 b, ← hval_b] at this
      exact this.2
    have hinv : (u.union a b).Inv := by
      rw [hu]
      intro z
      exact update_root_inv hfix_ra hc ((u.findS a).2.findS b).2.bound z (hib z)
    refine ⟨hinv, ?_⟩
    intro z
    by_cases hz : u.rootD z = u.rootD b
    · rw [if_pos hz]
      have hzr := rooted_of_inv hib z
      rw [hroots2 z, hz, ← hval_b] at hzr
      obtain ⟨⟨k, hk⟩, -⟩ := hzr
      have hrootedz : Rooted (u.union a b).parent z (u.findS a).1 := by
        rw [hu]
        exact rooted_update_to hfix_ra hc k z hk
      have := rootD_eq_of_rooted hinv hrootedz
      rw [this, hfa]
    · rw [if_neg hz]
      have hzr := rooted_of_inv hib z
      rw [hroots2 z] at hzr
      obtain ⟨⟨k, hk⟩, hf⟩ := hzr
      have hner : u.rootD z ≠ ((u.findS a).2.findS b).1 := by
        rw [hval_b]
        exact hz
      have hrootedz : Rooted (u.union a b).parent z (u.rootD z) := by
        rw [hu]
        exact rooted_update_ne hfix_rb k z (u.rootD z) hk hf hner
      exact rootD_eq_of_rooted hinv hrootedz

theorem union_inv {u : UnionFind α} (h : u.Inv) (a b : α) :
    (u.union a b).Inv :=
  (union_spec h a b).1

theorem union_rootD {u : UnionFind α} (h : u.Inv) (a b z : α) :
    (u.union a b).rootD z =
      if u.rootD z = u.rootD b then u.rootD a else u.rootD z :=
  (union_spec h a b).2 z

/-- The classes after `union a b` are those generated by the old classes
plus the pair `(a, b)`. -/
theorem rel_union {u : UnionFind α} (h : u.Inv) (a b x y : α) :
    (u.union a b).Rel x y ↔
      (u.Rel x y ∨ (u.Rel x a ∧ u.Rel b y) ∨ (u.Rel x b ∧ u.Rel a y)) := by
  show (u.union a b).rootD x = (u.union a b).rootD y ↔ _
  rw [union_rootD h, union_rootD h]
  unfold UnionFind.Rel
  by_cases hx : u.rootD x = u.rootD b <;> by_cases hy : u.rootD y = u.rootD b
  · rw [if_pos hx, if_pos hy]
    constructor
    · intro _; exact Or.inl (hx.trans hy.symm)
    · intro _; rfl
  · rw [if_pos hx, if_neg hy]
    constructor
    · intro hh; exact Or.inr (Or.inr ⟨hx, hh⟩)
    · rintro (hh | ⟨h1, h2⟩ | ⟨h1, h2⟩)
      · exact absurd (hh.symm.trans hx) hy
      · exact absurd h2.symm hy
      · exact h2
  · rw [if_neg hx, if_pos hy]
    constructor
    · intro hh; exact Or.inr (Or.inl ⟨hh, hy.symm⟩)
    · rintro (hh | ⟨h1, h2⟩ | ⟨h1, h2⟩)
      · exact absurd (hh.trans hy) hx
      · exact h1
      · exact absurd h1 hx
  · rw [if_neg hx, if_neg hy]
    constructor
    · intro hh; exact Or.inl hh
    · rintro (hh | ⟨h1, h2⟩ | ⟨h1, h2⟩)
      · exact hh
      · exact absurd h2.symm hy
      · exact absurd h1 hx

theorem rel_mono_union {u : UnionFind α} (h : u.Inv) (a b x y : α)
    (hr : u.Rel x y) : (u.union a b).Rel x y :=
  (rel_union h a b x y).mpr (Or.inl hr)

theorem empty_inv : (UnionFind.empty : UnionFind α).Inv :=
  fun _ => rfl

theorem applyUnions_inv :
    ∀ (ops : List (α × α)) (u : UnionFind α), u.Inv → (applyUnions u ops).Inv
  | [], _, h => h
  | ab :: ops, u, h => applyUnions_inv ops (u.union ab.1 ab.2) (union_inv h ab.1 ab.2)

theorem buildUF_inv (ops : List (α × α)) : (buildUF ops).Inv :=
  applyUnions_inv ops _ empty_inv

theorem applyUnions_cons (u : UnionFind α) (ab : α × α) (ops : List (α × α)) :
    applyUnions u (ab :: ops) = applyUnions (u.union ab.1 ab.2) ops :=
  rfl

/-- Monotonicity: running a subsequence of unions from a coarser start
yields a coarser relation. -/
theorem rel_applyUnions_mono {ops₁ ops₂ : List (α × α)}
    (hsub : ops₁.Sublist ops₂) :
    ∀ (u₁ u₂ : UnionFind α), u₁.Inv → u₂.Inv →
      (∀ x y, u₁.Rel x y → u₂.Rel x y) →
      ∀ x y, (applyUnions u₁ ops₁).Rel x y → (applyUnions u₂ ops₂).Rel x y := by
  induction hsub with
  | slnil =>
    intro u₁ u₂ _ _ hrel x y hxy
    exact hrel x y hxy
  | cons ab hsub ih =>
    intro u₁ u₂ h₁ h₂ hrel x y hxy
    rw [applyUnions_cons]
    refine ih u₁ (u₂.union ab.1 ab.2) h₁ (union_inv h₂ ab.1 ab.2) ?_ x y hxy
    intro x y hr
    exact rel_mono_union h₂ ab.1 ab.2 x y (hrel x y hr)
  | cons₂ ab hsub ih =>
    intro u₁ u₂ h₁ h₂ hrel x y hxy
    rw [applyUnions_cons] at hxy ⊢
    refine ih (u₁.union ab.1 ab.2) (u₂.union ab.1 ab.2)
      (union_inv h₁ ab.1 ab.2) (union_inv h₂ ab.1 ab.2) ?_ x y hxy
    intro x y hr
    rcases (rel_union h₁ ab.1 ab.2 x y).mp hr with hh | ⟨p, q⟩ | ⟨p, q⟩
    · exact (rel_union h₂ ab.1 ab.2 x y).mpr (Or.inl (hrel x y hh))
    · exact (rel_union h₂ ab.1 ab.2 x y).mpr
        (Or.inr (Or.inl ⟨hrel x ab.1 p, hrel ab.2 y q⟩))
    · exact (rel_union h₂ ab.1 ab.2 x y).mpr
        (Or.inr (Or.inr ⟨hrel x ab.2 p, hrel ab.1 y q⟩))

/-- **C9.** After any sequence of `union` operations on a fresh
`UnionFind`, `find` is idempotent: a second `find x` on the structure the
first call compressed returns the same root, and the compression changes
the root of no element at all. -/
theorem uf_find_idempotent (ops : List (α × α)) (x : α) :
    ((buildUF ops).findS x).2.find x = (buildUF ops).find x ∧
      ∀ z, ((buildUF ops).findS x).2.find z = (buildUF ops).find z := by
  have h := buildUF_inv ops
  obtain ⟨h1, h2, h3, h4⟩ := findS_spec h x
  have key : ∀ z, ((buildUF ops).findS x).2.find z = (buildUF ops).find z := by
    intro z
    rw [find_eq_rootD h2, find_eq_rootD h, h3]
  exact ⟨key x, key⟩

end UnionFindTheory

/-! ### Association-list grouping lemmas -/

section Grouping

variable {κ α : Type} [DecidableEq κ]

theorem lookupGroup_nil (k : κ) : lookupGroup ([] : List (κ × List α)) k = [] := rfl

theorem lookupGroup_cons (k₀ : κ) (vs : List α) (rest : List (κ × List α)) (k' : κ) :
    lookupGroup ((k₀, vs) :: rest) k' =
      if k₀ = k' then vs else lookupGroup rest k' := by
  by_cases h : k₀ = k'
  · simp [lookupGroup, List.find?, h]
  · simp [lookupGroup, List.find?, h]

theorem lookupGroup_insertKV (acc : List (κ × List α)) (k : κ) (v : α) (k' : κ) :
    lookupGroup (insertKV acc k v) k' =
      if k = k' then lookupGroup acc k' ++ [v] else lookupGroup acc k' := by
  induction acc with
  | nil =>
    by_cases h : k = k'
    · simp [insertKV, lookupGroup_cons, lookupGroup_nil, h]
    · simp [insertKV, lookupGroup_cons, lookupGroup_nil, h]
  | cons g rest ih =>
    obtain ⟨k₀, vs⟩ := g
    simp only [insertKV]
    by_cases hk : k = k₀
    · rw [if_pos hk]
      by_cases h' : k₀ = k'
      · rw [if_pos (hk.trans h'), lookupGroup_cons, if_pos h', lookupGroup_cons, if_pos h']
      · have hkk' : ¬(k = k') := fun hEq => h' (hk.symm.trans hEq)
        rw [if_neg hkk', lookupGroup_cons, if_neg h', lookupGroup_cons, if_neg h']
    · rw [if_neg hk, lookupGroup_cons]
      by_cases h' : k₀ = k'
      · have hkk' : ¬(k = k') := fun hEq => hk (hEq.trans h'.symm)
        rw [if_pos h', if_neg hkk', lookupGroup_cons, if_pos h']
      · rw [if_neg h', ih, lookupGroup_cons, if_neg h']

theorem keyValues_nil (k : κ) : keyValues ([] : List (κ × α)) k = [] := rfl

theorem keyValues_cons (k₀ : κ) (v : α) (rest : List (κ × α)) (k : κ) :
    keyValues ((k₀, v) :: rest) k =
      if k₀ = k then v :: keyValues rest k else keyValues rest k := by
  by_cases h : k₀ = k
  · simp [keyValues, List.filterMap_cons, h]
  · simp [keyValues, List.filterMap_cons, h]

theorem lookupGroup_foldl (l : List (κ × α)) :
    ∀ (acc : List (κ × List α)) (k : κ),
      lookupGroup (l.foldl (fun acc kv => insertKV acc kv.1 kv.2) acc) k =
        lookupGroup acc k ++ keyValues l k := by
  induction l with
  | nil =>
    intro acc k
    simp [keyValues_nil]
  | cons kv rest ih =>
    intro acc k
    obtain ⟨k₀, v⟩ := kv
    show lookupGroup (rest.foldl _ (insertKV acc k₀ v)) k = _
    rw [ih, lookupGroup_insertKV, keyValues_cons]
    by_cases h : k₀ = k
    · rw [if_pos h, if_pos h, List.append_assoc]
      rfl
    · rw [if_neg h, if_neg h]

theorem lookupGroup_groupPairs (l : List (κ × α)) (k : κ) :
    lookupGroup (groupPairs l) k = keyValues l k := by
  show lookupGroup (l.foldl _ []) k = _
  rw [lookupGroup_foldl]
  rfl

theorem mem_keys_insertKV (acc : List (κ × List α)) (k : κ) (v : α) (k' : κ) :
    k' ∈ (insertKV acc k v).map (fun g => g.1) ↔
      k' ∈ acc.map (fun g => g.1) ∨ k' = k := by
  induction acc with
  | nil => simp [insertKV]
  | cons g rest ih =>
    obtain ⟨k₀, vs⟩ := g
    simp only [insertKV]
    by_cases hk : k = k₀
    · rw [if_pos hk, hk]
      simp only [List.map_cons, List.mem_cons]
      constructor
      · rintro (h | h)
        · exact Or.inl (Or.inl h)
        · exact Or.inl (Or.inr h)
      · rintro ((h | h) | h)
        · exact Or.inl h
        · exact Or.inr h
        · exact Or.inl h
    · rw [if_neg hk]
      simp only [List.map_cons, List.mem_cons, ih]
      constructor
      · rintro (h | h | h)
        · exact Or.inl (Or.inl h)
        · exact Or.inl (Or.inr h)
        · exact Or.inr h
      · rintro ((h | h) | h)
        · exact Or.inl h
        · exact Or.inr (Or.inl h)
        · exact Or.inr (Or.inr h)

theorem nodup_keys_insertKV (acc : List (κ × List α)) (k : κ) (v : α)
    (h : (acc.map (fun g => g.1)).Nodup) :
    ((insertKV acc k v).map (fun g => g.1)).Nodup := by
  induction acc with
  | nil => simp [insertKV]
  | cons g rest ih =>
    obtain ⟨k₀, vs⟩ := g
    simp only [List.map_cons, List.nodup_cons] at h
    simp only [insertKV]
    by_cases hk : k = k₀
    · rw [if_pos hk]
      simp only [List.map_cons, List.nodup_cons]
      exact h
    · rw [if_neg hk]
      simp only [List.map_cons, List.nodup_cons]
      refine ⟨?_, ih h.2⟩
      rw [mem_keys_insertKV]
      rintro (hm | hm)
      · exact h.1 hm
      · exact hk hm.symm

theorem nodup_keys_groupPairs (l : List (κ × α)) :
    ((groupPairs l).map (fun g => g.1)).Nodup := by
  have : ∀ (acc : List (κ × List α)), (acc.map (fun g => g.1)).Nodup →
      ((l.foldl (fun acc kv => insertKV acc kv.1 kv.2) acc).map (fun g => g.1)).Nodup := by
    induction l with
    | nil => intro acc h; exact h
    | cons kv rest ih =>
      intro acc h
      exact ih _ (nodup_keys_insertKV acc kv.1 kv.2 h)
  exact this [] (by simp)

theorem find?_eq_some_of_mem {gs : List (κ × List α)}
    (hnd : (gs.map (fun g => g.1)).Nodup) {k : κ} {vs : List α}
    (h : (k, vs) ∈ gs) :
    gs.find? (fun g => decide (g.1 = k)) = some (k, vs) := by
  induction gs with
  | nil => cases h
  | cons g rest ih =>
    simp only [List.map_cons, List.nodup_cons] at hnd
    rcases List.mem_cons.mp h with hEq | hmem
    · rw [← hEq]
      exact List.find?_cons_of_pos _ (by simp)
    · have hne : g.1 ≠ k := by
        intro hgk
        apply hnd.1
        rw [hgk]
        exact List.mem_map.mpr ⟨(k, vs), hmem, rfl⟩
      rw [List.find?_cons_of_neg _ (by simp [hne])]
      exact ih hnd.2 hmem

theorem eq_keyValues_of_mem {l : List (κ × α)} {k : κ} {vs : List α}
    (h : (k, vs) ∈ groupPairs l) : vs = keyValues l k := by
  have hf := find?_eq_some_of_mem (nodup_keys_groupPairs l) h
  have : lookupGroup (groupPairs l) k = vs := by
    unfold lookupGroup
    rw [hf]
    rfl
  rw [← this, lookupGroup_groupPairs]

theorem mem_keyValues {l : List (κ × α)} {k : κ} {v : α} :
    v ∈ keyValues l k ↔ (k, v) ∈ l := by
  constructor
  · intro h
    obtain ⟨kv, hm, hkv⟩ := List.mem_filterMap.mp h
    by_cases hk : kv.1 = k
    · rw [if_pos hk] at hkv
      have : kv = (k, v) := by
        obtain ⟨a, b⟩ := kv
        simp only at hk hkv
        injection hkv with hb
        rw [hk, hb]
      rw [← this]
      exact hm
    · rw [if_neg hk] at hkv
      cases hkv
  · intro h
    refine List.mem_filterMap.mpr ⟨(k, v), h, ?_⟩
    simp

theorem exists_group_of_mem {l : List (κ × α)} {k : κ} {v : α}
    (h : (k, v) ∈ l) :
    ∃ vs, (k, vs) ∈ groupPairs l ∧ v ∈ vs := by
  have hv : v ∈ keyValues l k := mem_keyValues.mpr h
  cases hfind : (groupPairs l).find? (fun g => decide (g.1 = k)) with
  | none =>
    exfalso
    have : lookupGroup (groupPairs l) k = [] := by
      unfold lookupGroup
      rw [hfind]
      rfl
    rw [lookupGroup_groupPairs] at this
    rw [this] at hv
    cases hv
  | some g =>
    have hmem := List.mem_of_find?_eq_some hfind
    have hpred : g.1 = k := by
      have := List.find?_some hfind
      exact of_decide_eq_true this
    have hval : g.2 = keyValues l k := by
      have : lookupGroup (groupPairs l) k = g.2 := by
        unfold lookupGroup
        rw [hfind]
        rfl
      rw [lookupGroup_groupPairs] at this
      exact this.symm
    refine ⟨g.2, ?_, ?_⟩
    · have : g = (k, g.2) := by
        obtain ⟨a, b⟩ := g
        simp only at hpred
        rw [hpred]
      rw [← this]
      exact hmem
    · rw [hval]
      exact hv

theorem filterMap_sublist_of_imp {β γ : Type} (l : List β) (f g : β → Option γ)
    (h : ∀ x b, f x = some b → g x = some b) :
    (l.filterMap f).Sublist (l.filterMap g) := by
  induction l with
  | nil => simp
  | cons a l ih =>
    rw [List.filterMap_cons, List.filterMap_cons]
    cases hfa : f a with
    | none =>
      cases hga : g a with
      | none => exact ih
      | some c => exact ih.trans (List.sublist_cons_self c _)
    | some b =>
      rw [h a b hfa]
      exact ih.cons₂ b

theorem keyValues_sublist (l : List (κ × α)) (k : κ) :
    (keyValues l k).Sublist (l.map (fun kv => kv.2)) := by
  have heq : l.map (fun kv => kv.2) = l.filterMap (fun kv => some kv.2) := by
    induction l with
    | nil => rfl
    | cons a l ih => simp [List.filterMap_cons, ih]
  rw [heq]
  apply filterMap_sublist_of_imp
  intro x b hx
  by_cases hk : x.1 = k
  · rw [if_pos hk] at hx
    rw [hx]
  · rw [if_neg hk] at hx
    cases hx

theorem disjoint_keyValues {l : List (κ × α)}
    (h : (l.map (fun kv => kv.2)).Nodup) {k₁ k₂ : κ} (hne : k₁ ≠ k₂) :
    ∀ v, v ∈ keyValues l k₁ → v ∉ keyValues l k₂ := by
  intro v h1 h2
  have e1 : (k₁, v) ∈ l := mem_keyValues.mp h1
  have e2 : (k₂, v) ∈ l := mem_keyValues.mp h2
  have := List.inj_on_of_nodup_map h e1 e2 rfl
  exact hne (congrArg Prod.fst this)

theorem flatten_insertKV_perm (acc : List (κ × List α)) (k : κ) (v : α) :
    List.Perm (((insertKV acc k v).map (fun g => g.2)).flatten)
      ((acc.map (fun g => g.2)).flatten ++ [v]) := by
  induction acc with
  | nil => simp [insertKV]
  | cons g rest ih =>
    obtain ⟨k₀, vs⟩ := g
    simp only [insertKV]
    by_cases hk : k = k₀
    · rw [if_pos hk]
      simp only [List.map_cons, List.flatten_cons]
      rw [List.append_assoc, List.append_assoc]
      exact List.Perm.append_left vs List.perm_append_comm
    · rw [if_neg hk]
      simp only [List.map_cons, List.flatten_cons]
      rw [List.append_assoc]
      exact List.Perm.append_left vs ih

theorem flatten_groupPairs_aux :
    ∀ (l : List (κ × α)) (acc : List (κ × List α)),
      List.Perm
        (((l.foldl (fun acc kv => insertKV acc kv.1 kv.2) acc).map (fun g => g.2)).flatten)
        ((acc.map (fun g => g.2)).flatten ++ l.map (fun kv => kv.2)) := by
  intro l
  induction l with
  | nil => intro acc; simp
  | cons kv rest ih =>
    intro acc
    rw [List.foldl_cons]
    refine List.Perm.trans (ih (insertKV acc kv.1 kv.2)) ?_
    refine List.Perm.trans
      (List.Perm.append_right (rest.map (fun kv => kv.2))
        (flatten_insertKV_perm acc kv.1 kv.2)) ?_
    rw [List.append_assoc]
    simp [List.map_cons]

theorem flatten_groupPairs_perm (l : List (κ × α)) :
    List.Perm (((groupPairs l).map (fun g => g.2)).flatten)
      (l.map (fun kv => kv.2)) := by
  have h := flatten_groupPairs_aux l []
  simpa using h

end Grouping

/-! ### Generic list facts -/

theorem one_lt_length_of_two_mem {β : Type} {l : List β} {a b : β}
    (ha : a ∈ l) (hb : b ∈ l) (hab : a ≠ b) : 1 < l.length := by
  cases l with
  | nil => cases ha
  | cons c t =>
    cases t with
    | nil =>
      rcases List.mem_cons.mp ha with h1 | h1
      · rcases List.mem_cons.mp hb with h2 | h2
        · exact absurd (h1.trans h2.symm) hab
        · cases h2
      · cases h1
    | cons d t' => simp [List.length_cons]

theorem exists_two_distinct {β : Type} {l : List β} (hnd : l.Nodup)
    (hl : 1 < l.length) : ∃ a b, a ∈ l ∧ b ∈ l ∧ a ≠ b := by
  cases l with
  | nil => simp at hl
  | cons a t =>
    cases t with
    | nil => simp at hl
    | cons b t' =>
      refine ⟨a, b, List.mem_cons_self a _, List.mem_cons.mpr (Or.inr (List.mem_cons_self b _)), ?_⟩
      intro hEq
      have := (List.nodup_cons.mp hnd).1
      rw [hEq] at this
      exact this (List.mem_cons_self b _)

theorem flatten_sublist {β : Type} {l₁ l₂ : List (List β)} (h : l₁.Sublist l₂) :
    l₁.flatten.Sublist l₂.flatten := by
  induction h with
  | slnil => simp
  | cons a h ih =>
    rw [List.flatten_cons]
    exact ih.trans (List.sublist_append_right a _)
  | cons₂ a h ih =>
    rw [List.flatten_cons, List.flatten_cons]
    exact ih.append_left a

theorem filterMap_self_sublist {β γ : Type} (l : List β) (o : β → Option γ) :
    (l.filterMap (fun p => (o p).map (fun _ => p))).Sublist l := by
  induction l with
  | nil => simp
  | cons a l ih =>
    rw [List.filterMap_cons]
    cases ho : o a with
    | none => exact ih.cons a
    | some c => exact ih.cons₂ a

/-! ### dedupF -/

theorem mem_dedupF_aux {α : Type} [DecidableEq α] :
    ∀ (l : List α) (acc : List α) (x : α),
      x ∈ l.foldl (fun acc p => if p ∈ acc then acc else acc ++ [p]) acc ↔
        x ∈ acc ∨ x ∈ l := by
  intro l
  induction l with
  | nil => intro acc x; simp
  | cons a l ih =>
    intro acc x
    rw [List.foldl_cons, ih]
    by_cases ha : a ∈ acc
    · rw [if_pos ha]
      constructor
      · rintro (h | h)
        · exact Or.inl h
        · exact Or.inr (List.mem_cons.mpr (Or.inr h))
      · rintro (h | h)
        · exact Or.inl h
        · rcases List.mem_cons.mp h with h' | h'
          · exact Or.inl (by rw [h']; exact ha)
          · exact Or.inr h'
    · rw [if_neg ha]
      constructor
      · rintro (h | h)
        · rcases List.mem_append.mp h with h' | h'
          · exact Or.inl h'
          · exact Or.inr (List.mem_cons.mpr (Or.inl (List.mem_singleton.mp h')))
        · exact Or.inr (List.mem_cons.mpr (Or.inr h))
      · rintro (h | h)
        · exact Or.inl (List.mem_append.mpr (Or.inl h))
        · rcases List.mem_cons.mp h with h' | h'
          · exact Or.inl (List.mem_append.mpr (Or.inr (List.mem_singleton.mpr h')))
          · exact Or.inr h'

theorem mem_dedupF {α : Type} [DecidableEq α] {l : List α} {x : α} :
    x ∈ dedupF l ↔ x ∈ l := by
  unfold dedupF
  rw [mem_dedupF_aux]
  simp

theorem nodup_dedupF {α : Type} [DecidableEq α] (l : List α) :
    (dedupF l).Nodup := by
  have : ∀ (acc : List α), acc.Nodup →
      (l.foldl (fun acc p => if p ∈ acc then acc else acc ++ [p]) acc).Nodup := by
    induction l with
    | nil => intro acc h; exact h
    | cons a l ih =>
      intro acc h
      rw [List.foldl_cons]
      by_cases ha : a ∈ acc
      · rw [if_pos ha]; exact ih acc h
      · rw [if_neg ha]
        refine ih _ ?_
        rw [List.nodup_append]
        refine ⟨h, List.nodup_singleton a, ?_⟩
        intro x hx hx'
        have hxa : x = a := by simpa using hx'
        exact ha (hxa ▸ hx)
  exact this [] (List.nodup_nil)

/-! ### Pipeline-stage lemmas -/

theorem gff_congr (env : Env) {p q : String}
    (h : env.content p = env.content q) :
    get_file_fingerprint env p = get_file_fingerprint env q := by
  unfold get_file_fingerprint
  rw [h]

theorem gff_isSome (env : Env) (p : String) (h : (env.content p).isSome) :
    (get_file_fingerprint env p).isSome := by
  unfold get_file_fingerprint
  cases hc : env.content p with
  | none => rw [hc] at h; cases h
  | some bytes =>
    by_cases hl : bytes.length = 0
    · simp [hl]
    · simp [hl]

theorem mem_fingerprintList {env : Env} {paths : List String} {p : String}
    {fpv : Nat × String × String} :
    (p, fpv) ∈ fingerprintList env paths ↔
      p ∈ paths ∧ get_file_fingerprint env p = some fpv := by
  unfold fingerprintList
  rw [List.mem_filterMap]
  constructor
  · rintro ⟨q, hq, hmap⟩
    cases hg : get_file_fingerprint env q with
    | none => rw [hg] at hmap; cases hmap
    | some w =>
      rw [hg] at hmap
      have hmap' : (q, w) = (p, fpv) := by
        have hsome : some (q, w) = some (p, fpv) := hmap
        injection hsome
      have hq' : q = p := congrArg Prod.fst hmap'
      have hw : w = fpv := congrArg Prod.snd hmap'
      subst hq'
      subst hw
      exact ⟨mem_dedupF.mp hq, hg⟩
  · rintro ⟨hp, hg⟩
    exact ⟨p, mem_dedupF.mpr hp, by rw [hg]; rfl⟩

theorem firsts_fingerprintList_nodup (env : Env) (paths : List String) :
    ((fingerprintList env paths).map (fun pf => pf.1)).Nodup := by
  have heq : (fingerprintList env paths).map (fun pf => pf.1) =
      (dedupF paths).filterMap
        (fun p => (get_file_fingerprint env p).map (fun _ => p)) := by
    unfold fingerprintList
    rw [List.map_filterMap]
    congr 1
    funext p
    cases get_file_fingerprint env p <;> simp
  rw [heq]
  exact (filterMap_self_sublist _ _).nodup (nodup_dedupF paths)

theorem mem_toSha_of_group {env : Env} {paths : List String}
    {fpv : Nat × String × String} {vs : List String} {p : String}
    (hg : (fpv, vs) ∈ fpGroupsOf env paths) (hlen : 1 < vs.length)
    (hp : p ∈ vs) : p ∈ toShaOf env paths := by
  unfold toShaOf
  refine List.mem_flatMap.mpr ⟨(fpv, vs), ?_, hp⟩
  refine List.mem_filter.mpr ⟨hg, ?_⟩
  simpa using hlen

theorem shaResults_val {env : Env} {paths : List String} {q s : String}
    (h : (q, s) ∈ shaResultsOf env paths) :
    hash_file_sha256 env q = some s ∧ q ∈ toShaOf env paths := by
  unfold shaResultsOf at h
  obtain ⟨q', hq', hmap⟩ := List.mem_filterMap.mp h
  cases hh : hash_file_sha256 env q' with
  | none => rw [hh] at hmap; cases hmap
  | some w =>
    rw [hh] at hmap
    have hmap' : (q', w) = (q, s) := by
      have hsome : some (q', w) = some (q, s) := hmap
      injection hsome
    have h1 : q' = q := congrArg Prod.fst hmap'
    have h2 : w = s := congrArg Prod.snd hmap'
    subst h1
    subst h2
    exact ⟨hh, hq'⟩

theorem lookupA_shaResults {env : Env} {paths : List String} {p s : String}
    (hp : p ∈ toShaOf env paths) (hs : hash_file_sha256 env p = some s) :
    lookupA (shaResultsOf env paths) p = some s := by
  cases hfind : (shaResultsOf env paths).find? (fun kv => decide (kv.1 = p)) with
  | none =>
    exfalso
    have hmem : (p, s) ∈ shaResultsOf env paths := by
      unfold shaResultsOf
      exact List.mem_filterMap.mpr ⟨p, hp, by rw [hs]; rfl⟩
    have := List.find?_eq_none.mp hfind _ hmem
    simp at this
  | some kv =>
    have hk : kv.1 = p := by
      have := List.find?_some hfind
      simpa using this
    have hv := shaResults_val (List.mem_of_find?_eq_some hfind)
    have h1 : hash_file_sha256 env p = some kv.2 := by rw [← hk]; exact hv.1
    rw [hs] at h1
    injection h1 with h2
    unfold lookupA
    rw [hfind]
    simp [h2]

theorem exactKey_eq_sha {env : Env} {paths : List String} {p s : String}
    (hp : p ∈ toShaOf env paths) (hs : hash_file_sha256 env p = some s) :
    exactKeyOf env paths p = s := by
  unfold exactKeyOf
  rw [lookupA_shaResults hp hs]

theorem mem_exactAssoc {env : Env} {paths : List String} {p : String}
    {fpv : Nat × String × String} (h : (p, fpv) ∈ fingerprintList env paths) :
    (exactKeyOf env paths p, p) ∈ exactAssocOf env paths :=
  List.mem_map.mpr ⟨(p, fpv), h, rfl⟩

theorem exactAssoc_seconds (env : Env) (paths : List String) :
    (exactAssocOf env paths).map (fun kv => kv.2) =
      (fingerprintList env paths).map (fun pf => pf.1) := by
  unfold exactAssocOf
  rw [List.map_map]
  rfl

theorem exactAssoc_seconds_nodup (env : Env) (paths : List String) :
    ((exactAssocOf env paths).map (fun kv => kv.2)).Nodup := by
  rw [exactAssoc_seconds]
  exact firsts_fingerprintList_nodup env paths

theorem foldl_union_inv {π : Type} (simFn : π → π → ℚ) (t : ℚ) (p₁ : String)
    (h₁ : π) :
    ∀ (rest : List (String × π)) (u : UnionFind String), u.Inv →
      (rest.foldl (fun u q => if t ≤ simFn h₁ q.2 then u.union p₁ q.1 else u) u).Inv := by
  intro rest
  induction rest with
  | nil => intro u h; exact h
  | cons q rest ih =>
    intro u h
    rw [List.foldl_cons]
    by_cases hq : t ≤ simFn h₁ q.2
    · rw [if_pos hq]; exact ih _ (union_inv h p₁ q.1)
    · rw [if_neg hq]; exact ih _ h

theorem comparePass_inv {π : Type} (simFn : π → π → ℚ) (t : ℚ) :
    ∀ (l : List (String × π)) (u : UnionFind String), u.Inv →
      (comparePass simFn t l u).Inv := by
  intro l
  induction l with
  | nil => intro u h; exact h
  | cons ph rest ih =>
    intro u h
    show (comparePass simFn t rest _).Inv
    exact ih _ (foldl_union_inv simFn t ph.1 ph.2 rest u h)

theorem buildClusters_fold_eq (env : Env) (paths : List String) :
    ∀ (gs : List (String × List String)) (accl : List (String × List String))
      (u : UnionFind String), u.Inv →
      (gs.foldl
        (fun acc g =>
          let f := acc.2.findS (g.2.headD "")
          (acc.1 ++ [(f.1, g.2)], f.2))
        (accl, u)).1
        = accl ++ gs.map (fun g => (u.rootD (g.2.headD ""), g.2)) := by
  intro gs
  induction gs with
  | nil => intro accl u _; simp
  | cons g gs ih =>
    intro accl u h
    rw [List.foldl_cons]
    obtain ⟨hfst, hinv, hroots, -⟩ := findS_spec h (g.2.headD "")
    rw [ih _ _ hinv]
    rw [hfst]
    have hmap : gs.map (fun g' => ((u.findS (g.2.headD "")).2.rootD (g'.2.headD ""), g'.2))
        = gs.map (fun g' => (u.rootD (g'.2.headD ""), g'.2)) := by
      apply List.map_congr_left
      intro g' _
      rw [hroots]
    rw [hmap, List.map_cons]
    rw [List.append_assoc]
    rfl

theorem buildClustersOf_eq (env : Env) (paths : List String)
    (u : UnionFind String) (h : u.Inv) :
    buildClustersOf env paths u =
      ((groupPairs (rootAssocOf env paths u)).map (fun g => g.2.flatten)).filter
        (fun c => 1 < c.length) := by
  simp only [buildClustersOf, rootAssocOf]
  rw [buildClusters_fold_eq env paths (exactGroupsOf env paths) [] u h]
  rfl

/-- Core grouping lemma behind C1: two readable bit-identical input files
travel together through every stage and land in one returned cluster. -/
theorem clusterCore_pair {π : Type} (env : Env) (percep : String → Option π)
    (simFn : π → π → ℚ) (paths : List String) (t : ℚ) {f1 f2 : String}
    (h1 : f1 ∈ paths) (h2 : f2 ∈ paths) (hne : f1 ≠ f2)
    (hc : env.content f1 = env.content f2) (hr : (env.content f1).isSome) :
    ∃ c ∈ clusterCore env percep simFn paths t, f1 ∈ c ∧ f2 ∈ c := by
  obtain ⟨fpv, hfp1⟩ := Option.isSome_iff_exists.mp (gff_isSome env f1 hr)
  have hfp2 : get_file_fingerprint env f2 = some fpv := by
    rw [← gff_congr env hc]; exact hfp1
  have hm1 : (f1, fpv) ∈ fingerprintList env paths := mem_fingerprintList.mpr ⟨h1, hfp1⟩
  have hm2 : (f2, fpv) ∈ fingerprintList env paths := mem_fingerprintList.mpr ⟨h2, hfp2⟩
  have hs1 : (fpv, f1) ∈ (fingerprintList env paths).map (fun pf => (pf.2, pf.1)) :=
    List.mem_map.mpr ⟨(f1, fpv), hm1, rfl⟩
  have hs2 : (fpv, f2) ∈ (fingerprintList env paths).map (fun pf => (pf.2, pf.1)) :=
    List.mem_map.mpr ⟨(f2, fpv), hm2, rfl⟩
  obtain ⟨vsF, hgF, hf1F⟩ := exists_group_of_mem hs1
  have hf2F : f2 ∈ vsF := by
    rw [eq_keyValues_of_mem hgF]
    exact mem_keyValues.mpr hs2
  have hlenF : 1 < vsF.length := one_lt_length_of_two_mem hf1F hf2F hne
  have ht1 : f1 ∈ toShaOf env paths := mem_toSha_of_group hgF hlenF hf1F
  have ht2 : f2 ∈ toShaOf env paths := mem_toSha_of_group hgF hlenF hf2F
  obtain ⟨bytes, hb⟩ := Option.isSome_iff_exists.mp hr
  have hsha1 : hash_file_sha256 env f1 = some (env.shaFn bytes) := by
    unfold hash_file_sha256; rw [hb]; rfl
  have hsha2 : hash_file_sha256 env f2 = some (env.shaFn bytes) := by
    unfold hash_file_sha256; rw [← hc, hb]; rfl
  have hk1 : exactKeyOf env paths f1 = env.shaFn bytes := exactKey_eq_sha ht1 hsha1
  have hk2 : exactKeyOf env paths f2 = env.shaFn bytes := exactKey_eq_sha ht2 hsha2
  have he1 : (env.shaFn bytes, f1) ∈ exactAssocOf env paths := by
    rw [← hk1]; exact mem_exactAssoc hm1
  have he2 : (env.shaFn bytes, f2) ∈ exactAssocOf env paths := by
    rw [← hk2]; exact mem_exactAssoc hm2
  obtain ⟨vsE, hgE, hf1E⟩ := exists_group_of_mem he1
  have hf2E : f2 ∈ vsE := by
    rw [eq_keyValues_of_mem hgE]
    exact mem_keyValues.mpr he2
  set u := comparePass simFn t (percepResults percep (repsOf env paths)) UnionFind.empty with hu
  have hinv : u.Inv := comparePass_inv simFn t _ UnionFind.empty empty_inv
  have hra : (u.rootD (vsE.headD ""), vsE) ∈ rootAssocOf env paths u :=
    List.mem_map.mpr ⟨(env.shaFn bytes, vsE), hgE, rfl⟩
  obtain ⟨vss, hgg, hvs⟩ := exists_group_of_mem hra
  have hf1c : f1 ∈ vss.flatten := List.mem_flatten.mpr ⟨vsE, hvs, hf1E⟩
  have hf2c : f2 ∈ vss.flatten := List.mem_flatten.mpr ⟨vsE, hvs, hf2E⟩
  refine ⟨vss.flatten, ?_, hf1c, hf2c⟩
  show vss.flatten ∈ clusterCore env percep simFn paths t
  simp only [clusterCore]
  rw [← hu, buildClustersOf_eq env paths u hinv]
  refine List.mem_filter.mpr ⟨?_, ?_⟩
  · exact List.mem_map.mpr ⟨(u.rootD (vsE.headD ""), vss), hgg, rfl⟩
  · simpa using one_lt_length_of_two_mem hf1c hf2c hne

/-- **C1.** If two distinct readable input files are bit-identical (equal
byte content), then `cluster_images` (resp. `cluster_videos`) places them
in the same returned cluster, for every threshold value. -/
theorem bit_identical_same_cluster (env : Env) (paths : List String)
    (t : ℚ) (sc : Nat) (f1 f2 : String)
    (h1 : f1 ∈ paths) (h2 : f2 ∈ paths) (hne : f1 ≠ f2)
    (hc : env.content f1 = env.content f2) (hr : (env.content f1).isSome) :
    (∃ c ∈ cluster_images env paths t, f1 ∈ c ∧ f2 ∈ c) ∧
      (∃ c ∈ cluster_videos env paths t sc, f1 ∈ c ∧ f2 ∈ c) :=
  ⟨clusterCore_pair env _ _ paths t h1 h2 hne hc hr,
    clusterCore_pair env _ _ paths t h1 h2 hne hc hr⟩

/-- **C1 witness.** Evaluating the hypotheses and conclusion on two
concrete bit-identical files. -/
theorem bit_identical_same_cluster_witness :
    (∃ c ∈ cluster_images envTwin ["a", "b"] (89 / 100), "a" ∈ c ∧ "b" ∈ c) ∧
      (∃ c ∈ cluster_videos envTwin ["a", "b"] (89 / 100) 10, "a" ∈ c ∧ "b" ∈ c) :=
  bit_identical_same_cluster envTwin ["a", "b"] (89 / 100) 10 "a" "b"
    (by decide) (by decide) (by decide) (by decide) (by decide)

/-- Within-cluster freedom from duplicates: every pre-filter cluster is a
sublist of the concatenation of all exact groups, which is a permutation
of the (duplicate-free) grouped paths. -/
theorem cluster_nodup {env : Env} {paths : List String} {u : UnionFind String}
    {c : List String}
    (hc : c ∈ (groupPairs (rootAssocOf env paths u)).map (fun g => g.2.flatten)) :
    c.Nodup := by
  obtain ⟨g, hg, hflat⟩ := List.mem_map.mp hc
  have e : g.2 = keyValues (rootAssocOf env paths u) g.1 := eq_keyValues_of_mem hg
  have hsub1 : g.2.Sublist ((rootAssocOf env paths u).map (fun kv => kv.2)) := by
    rw [e]
    exact keyValues_sublist _ _
  have hmapeq : (rootAssocOf env paths u).map (fun kv => kv.2) =
      (exactGroupsOf env paths).map (fun g' => g'.2) := by
    unfold rootAssocOf
    rw [List.map_map]
    rfl
  rw [hmapeq] at hsub1
  have hsub2 := flatten_sublist hsub1
  have hperm := flatten_groupPairs_perm (exactAssocOf env paths)
  have hnd := exactAssoc_seconds_nodup env paths
  have hbig : (((exactGroupsOf env paths).map (fun g' => g'.2)).flatten).Nodup :=
    hperm.nodup_iff.mpr hnd
  rw [← hflat]
  exact hsub2.nodup hbig

/-- Core disjointness lemma behind C10. -/
theorem clusterCore_invariants {π : Type} (env : Env)
    (percep : String → Option π) (simFn : π → π → ℚ) (paths : List String)
    (t : ℚ) :
    (∀ c ∈ clusterCore env percep simFn paths t, 2 ≤ c.length) ∧
      (clusterCore env percep simFn paths t).Pairwise
        (fun c₁ c₂ => ∀ p, p ∈ c₁ → p ∉ c₂) := by
  set u := comparePass simFn t (percepResults percep (repsOf env paths)) UnionFind.empty with hu
  have hinv : u.Inv := comparePass_inv simFn t _ UnionFind.empty empty_inv
  have hrw : clusterCore env percep simFn paths t =
      ((groupPairs (rootAssocOf env paths u)).map (fun g => g.2.flatten)).filter
        (fun c => 1 < c.length) := by
    simp only [clusterCore]
    rw [← hu, buildClustersOf_eq env paths u hinv]
  constructor
  · intro c hc
    rw [hrw] at hc
    have := (List.mem_filter.mp hc).2
    simp only [decide_eq_true_eq] at this
    omega
  · rw [hrw]
    apply List.Pairwise.sublist (List.filter_sublist _)
    rw [List.pairwise_map]
    have hkeys : ((groupPairs (rootAssocOf env paths u)).map (fun g => g.1)).Nodup :=
      nodup_keys_groupPairs _
    have hpair : (groupPairs (rootAssocOf env paths u)).Pairwise
        (fun g₁ g₂ => g₁.1 ≠ g₂.1) := List.pairwise_map.mp hkeys
    refine hpair.imp_of_mem ?_
    intro g₁ g₂ hg₁ hg₂ hne p hp₁ hp₂
    obtain ⟨vs₁, hvs₁, hpv₁⟩ := List.mem_flatten.mp hp₁
    obtain ⟨vs₂, hvs₂, hpv₂⟩ := List.mem_flatten.mp hp₂
    have e₁ : g₁.2 = keyValues (rootAssocOf env paths u) g₁.1 := eq_keyValues_of_mem hg₁
    have e₂ : g₂.2 = keyValues (rootAssocOf env paths u) g₂.1 := eq_keyValues_of_mem hg₂
    rw [e₁] at hvs₁
    rw [e₂] at hvs₂
    have hra₁ : (g₁.1, vs₁) ∈ rootAssocOf env paths u := mem_keyValues.mp hvs₁
    have hra₂ : (g₂.1, vs₂) ∈ rootAssocOf env paths u := mem_keyValues.mp hvs₂
    obtain ⟨eg₁, heg₁, heq₁⟩ := List.mem_map.mp hra₁
    obtain ⟨eg₂, heg₂, heq₂⟩ := List.mem_map.mp hra₂
    have hr₁ : u.rootD (eg₁.2.headD "") = g₁.1 := congrArg Prod.fst heq₁
    have hr₂ : u.rootD (eg₂.2.headD "") = g₂.1 := congrArg Prod.fst heq₂
    have hv₁ : eg₁.2 = vs₁ := congrArg Prod.snd heq₁
    have hv₂ : eg₂.2 = vs₂ := congrArg Prod.snd heq₂
    have hkv₁ : eg₁.2 = keyValues (exactAssocOf env paths) eg₁.1 := eq_keyValues_of_mem heg₁
    have hkv₂ : eg₂.2 = keyValues (exactAssocOf env paths) eg₂.1 := eq_keyValues_of_mem heg₂
    by_cases hkk : eg₁.1 = eg₂.1
    · apply hne
      rw [← hr₁, ← hr₂]
      have : eg₁.2 = eg₂.2 := by rw [hkv₁, hkv₂, hkk]
      rw [this]
    · have hd := disjoint_keyValues (exactAssoc_seconds_nodup env paths) hkk p
      apply hd
      · rw [← hkv₁, hv₁]; exact hpv₁
      · rw [← hkv₂, hv₂]; exact hpv₂

/-- **C10.** Every group returned by `cluster_images` / `cluster_videos`
has at least 2 paths, and the returned groups are pairwise disjoint (no
path appears in more than one group).  Distinctness of the input paths is
not even needed: the path-keyed dictionaries de-duplicate the input. -/
theorem clusters_min_size_and_disjoint (env : Env) (paths : List String)
    (t : ℚ) (sc : Nat) :
    ((∀ c ∈ cluster_images env paths t, 2 ≤ c.length) ∧
      (cluster_images env paths t).Pairwise (fun c₁ c₂ => ∀ p, p ∈ c₁ → p ∉ c₂)) ∧
      ((∀ c ∈ cluster_videos env paths t sc, 2 ≤ c.length) ∧
        (cluster_videos env paths t sc).Pairwise
          (fun c₁ c₂ => ∀ p, p ∈ c₁ → p ∉ c₂)) :=
  ⟨clusterCore_invariants env _ _ paths t, clusterCore_invariants env _ _ paths t⟩

/-! ### Threshold monotonicity (claim C2) -/

theorem foldl_union_eq_applyUnions {π : Type} (simFn : π → π → ℚ) (t : ℚ)
    (p₁ : String) (h₁ : π) :
    ∀ (rest : List (String × π)) (u : UnionFind String),
      rest.foldl (fun u q => if t ≤ simFn h₁ q.2 then u.union p₁ q.1 else u) u =
        applyUnions u
          (rest.filterMap
            (fun q => if t ≤ simFn h₁ q.2 then some (p₁, q.1) else none)) := by
  intro rest
  induction rest with
  | nil => intro u; rfl
  | cons q rest ih =>
    intro u
    rw [List.foldl_cons, List.filterMap_cons]
    by_cases hq : t ≤ simFn h₁ q.2
    · rw [if_pos hq, if_pos hq, ih]
      rfl
    · rw [if_neg hq, if_neg hq, ih]

theorem comparePass_eq_applyUnions {π : Type} (simFn : π → π → ℚ) (t : ℚ) :
    ∀ (l : List (String × π)) (u : UnionFind String),
      comparePass simFn t l u = applyUnions u (simPairs simFn t l) := by
  intro l
  induction l with
  | nil => intro u; rfl
  | cons ph rest ih =>
    intro u
    show comparePass simFn t rest _ = _
    rw [ih, foldl_union_eq_applyUnions]
    have hsp : simPairs simFn t (ph :: rest) =
        (rest.filterMap
          (fun q => if t ≤ simFn ph.2 q.2 then some (ph.1, q.1) else none)) ++
          simPairs simFn t rest := by
      have hop : orderedPairs (ph :: rest) =
          rest.map (fun b => (ph, b)) ++ orderedPairs rest := rfl
      have hcomp : ((fun q : (String × π) × (String × π) =>
            if t ≤ simFn q.1.2 q.2.2 then some (q.1.1, q.2.1) else none) ∘
            fun b => (ph, b)) =
          (fun q : String × π =>
            if t ≤ simFn ph.2 q.2 then some (ph.1, q.1) else none) := by
        funext q
        rfl
      unfold simPairs
      rw [hop, List.filterMap_append, List.filterMap_map, hcomp]
    rw [hsp]
    unfold applyUnions
    rw [List.foldl_append]

theorem simPairs_sublist {π : Type} (simFn : π → π → ℚ) {t₁ t₂ : ℚ}
    (hle : t₁ ≤ t₂) (l : List (String × π)) :
    (simPairs simFn t₂ l).Sublist (simPairs simFn t₁ l) := by
  unfold simPairs
  apply filterMap_sublist_of_imp
  intro q b hb
  by_cases h : t₂ ≤ simFn q.1.2 q.2.2
  · rw [if_pos h] at hb
    rw [if_pos (le_trans hle h)]
    exact hb
  · rw [if_neg h] at hb
    cases hb

/-- Core monotonicity lemma behind C2: a pair grouped together at the
higher threshold is grouped together at the lower one. -/
theorem clusterCore_mono {π : Type} (env : Env) (percep : String → Option π)
    (simFn : π → π → ℚ) (paths : List String) {t₁ t₂ : ℚ} (hle : t₁ ≤ t₂)
    {x y : String}
    (h : ∃ c ∈ clusterCore env percep simFn paths t₂, x ∈ c ∧ y ∈ c) :
    ∃ c ∈ clusterCore env percep simFn paths t₁, x ∈ c ∧ y ∈ c := by
  obtain ⟨c, hc, hx, hy⟩ := h
  set pr := percepResults percep (repsOf env paths) with hpr
  set u₂ := comparePass simFn t₂ pr UnionFind.empty with hu₂
  set u₁ := comparePass simFn t₁ pr UnionFind.empty with hu₁
  have hinv₂ : u₂.Inv := comparePass_inv simFn t₂ pr UnionFind.empty empty_inv
  have hinv₁ : u₁.Inv := comparePass_inv simFn t₁ pr UnionFind.empty empty_inv
  have hrel : ∀ a b, u₂.Rel a b → u₁.Rel a b := by
    intro a b hab
    have e₂ : u₂ = applyUnions UnionFind.empty (simPairs simFn t₂ pr) := by
      rw [hu₂, comparePass_eq_applyUnions]
    have e₁ : u₁ = applyUnions UnionFind.empty (simPairs simFn t₁ pr) := by
      rw [hu₁, comparePass_eq_applyUnions]
    rw [e₂] at hab
    rw [e₁]
    exact rel_applyUnions_mono (simPairs_sublist simFn hle pr) _ _
      empty_inv empty_inv (fun _ _ hh => hh) a b hab
  have hrw₂ : clusterCore env percep simFn paths t₂ =
      ((groupPairs (rootAssocOf env paths u₂)).map (fun g => g.2.flatten)).filter
        (fun c => 1 < c.length) := by
    simp only [clusterCore]
    rw [← hpr, ← hu₂, buildClustersOf_eq env paths u₂ hinv₂]
  rw [hrw₂] at hc
  have hcmem := (List.mem_filter.mp hc).1
  have hclen : 1 < c.length := by
    have := (List.mem_filter.mp hc).2
    simpa using this
  have hcnodup : c.Nodup := cluster_nodup hcmem
  obtain ⟨g, hg, hflat⟩ := List.mem_map.mp hcmem
  have hmem_decomp : ∀ m, m ∈ c → ∃ eg, eg ∈ exactGroupsOf env paths ∧
      m ∈ eg.2 ∧ u₂.rootD (eg.2.headD "") = g.1 := by
    intro m hm
    rw [← hflat] at hm
    obtain ⟨vs, hvs, hmvs⟩ := List.mem_flatten.mp hm
    have e := eq_keyValues_of_mem hg
    rw [e] at hvs
    have hra : (g.1, vs) ∈ rootAssocOf env paths u₂ := mem_keyValues.mp hvs
    obtain ⟨eg, heg, heq⟩ := List.mem_map.mp hra
    have hfst : u₂.rootD (eg.2.headD "") = g.1 := congrArg Prod.fst heq
    have hsnd : eg.2 = vs := congrArg Prod.snd heq
    exact ⟨eg, heg, by rw [hsnd]; exact hmvs, hfst⟩
  obtain ⟨egx, hegx, hmx, hrx⟩ := hmem_decomp x hx
  set r' := u₁.rootD (egx.2.headD "") with hr'
  have hrax : (r', egx.2) ∈ rootAssocOf env paths u₁ := by
    refine List.mem_map.mpr ⟨egx, hegx, ?_⟩
    rw [hr']
  obtain ⟨vss', hgg', hvsx'⟩ := exists_group_of_mem hrax
  have hland : ∀ m, m ∈ c → m ∈ vss'.flatten := by
    intro m hm
    obtain ⟨egm, hegm, hmm, hrm⟩ := hmem_decomp m hm
    have hrel2 : u₂.Rel (egm.2.headD "") (egx.2.headD "") := by
      show u₂.rootD _ = u₂.rootD _
      rw [hrm, hrx]
    have hrel1 := hrel _ _ hrel2
    have hroot1 : u₁.rootD (egm.2.headD "") = r' := by
      rw [hr']
      exact hrel1
    have hram : (r', egm.2) ∈ rootAssocOf env paths u₁ := by
      refine List.mem_map.mpr ⟨egm, hegm, ?_⟩
      rw [hroot1]
    have hmem' : egm.2 ∈ vss' := by
      rw [eq_keyValues_of_mem hgg']
      exact mem_keyValues.mpr hram
    exact List.mem_flatten.mpr ⟨egm.2, hmem', hmm⟩
  obtain ⟨a, b, hac, hbc, hab⟩ := exists_two_distinct hcnodup hclen
  refine ⟨vss'.flatten, ?_, hland x hx, hland y hy⟩
  have hrw₁ : clusterCore env percep simFn paths t₁ =
      ((groupPairs (rootAssocOf env paths u₁)).map (fun g => g.2.flatten)).filter
        (fun c => 1 < c.length) := by
    simp only [clusterCore]
    rw [← hpr, ← hu₁, buildClustersOf_eq env paths u₁ hinv₁]
  rw [hrw₁]
  refine List.mem_filter.mpr ⟨List.mem_map.mpr ⟨(r', vss'), hgg', rfl⟩, ?_⟩
  simpa using one_lt_length_of_two_mem (hland a hac) (hland b hbc) hab

/-- **C2.** For thresholds `t₁ ≤ t₂`, any two files grouped into one
cluster by `cluster_images` (resp. `cluster_videos`) at `t₂` are grouped
into one cluster at `t₁`: lowering the threshold only coarsens the
grouping. -/
theorem threshold_monotone (env : Env) (paths : List String) (t₁ t₂ : ℚ)
    (sc : Nat) (x y : String) (hle : t₁ ≤ t₂) :
    ((∃ c ∈ cluster_images env paths t₂, x ∈ c ∧ y ∈ c) →
      ∃ c ∈ cluster_images env paths t₁, x ∈ c ∧ y ∈ c) ∧
      ((∃ c ∈ cluster_videos env paths t₂ sc, x ∈ c ∧ y ∈ c) →
        ∃ c ∈ cluster_videos env paths t₁ sc, x ∈ c ∧ y ∈ c) :=
  ⟨fun h => clusterCore_mono env _ _ paths hle h,
    fun h => clusterCore_mono env _ _ paths hle h⟩

/-- **C2 witness.** Concrete instance at thresholds 1/2 < 1 on two
bit-identical files. -/
theorem threshold_monotone_witness :
    ∃ c ∈ cluster_images envTwin ["a", "b"] (1 / 2), "a" ∈ c ∧ "b" ∈ c :=
  (threshold_monotone envTwin ["a", "b"] (1 / 2) 1 10 "a" "b" (by norm_num)).1
    (by decide)

/-! ### Cluster handlers (claims C3 and C5) -/

theorem insertOrd_perm {β : Type} (le : β → β → Bool) (a : β) (l : List β) :
    List.Perm (insertOrd le a l) (a :: l) := by
  induction l with
  | nil => exact List.Perm.refl _
  | cons b l ih =>
    unfold insertOrd
    by_cases h : le a b
    · rw [if_pos h]
    · rw [if_neg h]
      exact (ih.cons b).trans (List.Perm.swap a b l)

theorem sortL_perm {β : Type} (le : β → β → Bool) (l : List β) :
    List.Perm (sortL le l) l := by
  induction l with
  | nil => exact List.Perm.refl _
  | cons a l ih =>
    show List.Perm (insertOrd le a (sortL le l)) _
    exact (insertOrd_perm le a (sortL le l)).trans (ih.cons a)

theorem sorted_struct (score : String → ℚ) (cluster : List String)
    (hne : cluster ≠ []) :
    ∃ sb os, sortL scoredGe (cluster.map (fun p => (score p, p))) = sb :: os ∧
      List.Perm (sb.2 :: os.map (fun sp => sp.2)) cluster := by
  have hperm := sortL_perm scoredGe (cluster.map (fun p => (score p, p)))
  cases hsort : sortL scoredGe (cluster.map (fun p => (score p, p))) with
  | nil =>
    exfalso
    rw [hsort] at hperm
    have hlen := hperm.length_eq
    simp only [List.length_nil, List.length_map] at hlen
    exact hne (List.length_eq_zero.mp hlen.symm)
  | cons sb os =>
    refine ⟨sb, os, rfl, ?_⟩
    rw [hsort] at hperm
    have hmap := hperm.map (fun sp : ℚ × String => sp.2)
    rw [List.map_map] at hmap
    have hid : cluster.map ((fun sp : ℚ × String => sp.2) ∘ fun p => (score p, p)) =
        cluster := by
      have : ((fun sp : ℚ × String => sp.2) ∘ fun p => (score p, p)) = id := by
        funext p
        rfl
      rw [this, List.map_id]
    rw [hid] at hmap
    exact hmap

/-- Every pair in an all-exact-duplicate cluster takes the SHA branch:
the loop moves each remaining member and never reaches the interactive
branch (nor, a fortiori, any decision source). -/
theorem handleLoop_all_sha (env : Env) (dupdir : String) (interactive : Bool)
    (autoTag : String) :
    ∀ (others : List String) (fs : String → Option (List Nat)) (best : String)
      (evs : List Event) (s₀ : String),
      (fs best).isSome → shaOf env fs best = some s₀ →
      best ∉ others → others.Nodup →
      (∀ p ∈ others, (fs p).isSome ∧ shaOf env fs p = some s₀) →
      ∃ fs', handleLoop env dupdir interactive autoTag fs best others evs =
        .ok (fs', evs ++ others.map
          (fun o => Event.moved "SHA" o (env.moveDest dupdir o))) := by
  intro others
  induction others with
  | nil =>
    intro fs best evs s₀ _ _ _ _ _
    exact ⟨fs, by simp [handleLoop]⟩
  | cons other rest ih =>
    intro fs best evs s₀ hb hsb hbmem hnd hall
    have hother := hall other (List.mem_cons_self other rest)
    have hcond : ¬(((fs best).isNone : Prop) ∨ ((fs other).isNone : Prop)) := by
      rintro (h | h)
      · rw [Option.isNone_iff_eq_none] at h
        rw [h] at hb
        cases hb
      · rw [Option.isNone_iff_eq_none] at h
        rw [h] at hother
        cases hother.1
    have heq : ((shaOf env fs best).isSome : Prop) ∧
        shaOf env fs best = shaOf env fs other := by
      refine ⟨by rw [hsb]; rfl, ?_⟩
      rw [hsb, hother.2]
    simp only [handleLoop, move_to_duplicates]
    rw [if_neg hcond, if_pos heq]
    have hbo : best ≠ other := fun hEq => hbmem (hEq ▸ List.mem_cons_self other rest)
    have hkeep : ∀ q, (fs q).isSome → shaOf env fs q = some s₀ → q ≠ other →
        ((fsMove fs other (env.moveDest dupdir other)) q).isSome ∧
          shaOf env (fsMove fs other (env.moveDest dupdir other)) q = some s₀ := by
      intro q hqs hqsha hqne
      unfold shaOf at hqsha hother ⊢
      unfold fsMove
      by_cases hd : q = env.moveDest dupdir other
      · rw [if_pos hd]
        exact ⟨hother.1, hother.2⟩
      · rw [if_neg hd, if_neg hqne]
        exact ⟨hqs, hqsha⟩
    have hbnotrest : best ∉ rest := fun hEq => hbmem (List.mem_cons.mpr (Or.inr hEq))
    have hrestnd : rest.Nodup := (List.nodup_cons.mp hnd).2
    have hothernotrest : other ∉ rest := (List.nodup_cons.mp hnd).1
    obtain ⟨fsF, hF⟩ := ih (fsMove fs other (env.moveDest dupdir other)) best
      (evs ++ [Event.moved "SHA" other (env.moveDest dupdir other)]) s₀
      (hkeep best hb hsb hbo).1 (hkeep best hb hsb hbo).2 hbnotrest hrestnd
      (fun p hp =>
        hkeep p (hall p (List.mem_cons.mpr (Or.inr hp))).1
          (hall p (List.mem_cons.mpr (Or.inr hp))).2
          (fun hEq => hothernotrest (hEq ▸ hp)))
    refine ⟨fsF, ?_⟩
    rw [hF, List.map_cons, List.append_assoc]
    rfl

/-- **C3.** On a cluster whose members are all readable and pairwise
share one content digest, `handle_image_cluster` and
`handle_video_cluster` succeed in any mode, automatically moving exactly
the non-best members, each via the `"SHA"` exact-duplicate branch — no
review window, prompt or decision callback is ever reached. -/
theorem exact_duplicates_auto_resolved (env : Env)
    (fs : String → Option (List Nat)) (cluster : List String)
    (interactive : Bool) (dupdir : String) (sc ci ct : Nat)
    (hne : cluster ≠ []) (hnd : cluster.Nodup)
    (hr : ∀ p ∈ cluster, (fs p).isSome)
    (hsha : ∀ p ∈ cluster, ∀ q ∈ cluster, shaOf env fs p = shaOf env fs q) :
    (∃ fs' best others, List.Perm (best :: others) cluster ∧
        handle_image_cluster env fs cluster interactive dupdir ci ct =
          .ok (fs', others.map
            (fun o => Event.moved "SHA" o (env.moveDest dupdir o)))) ∧
      (∃ fs' best others, List.Perm (best :: others) cluster ∧
        handle_video_cluster env fs cluster interactive dupdir sc ci ct =
          .ok (fs', others.map
            (fun o => Event.moved "SHA" o (env.moveDest dupdir o)))) := by
  have main : ∀ score : String → ℚ, ∀ autoTag : String,
      ∃ fs' best others, List.Perm (best :: others) cluster ∧
        (match sortL scoredGe (cluster.map (fun p => (score p, p))) with
          | [] => (.error .indexError :
              Except RunErr ((String → Option (List Nat)) × List Event))
          | sb :: os =>
            handleLoop env dupdir interactive autoTag fs sb.2
              (os.map (fun sp : ℚ × String => sp.2)) []) =
          .ok (fs', others.map
            (fun o => Event.moved "SHA" o (env.moveDest dupdir o))) := by
    intro score autoTag
    obtain ⟨sb, os, hsort, hperm⟩ := sorted_struct score cluster hne
    have hbest_mem : sb.2 ∈ cluster := hperm.mem_iff.mp (List.mem_cons_self _ _)
    have hnd' : (sb.2 :: os.map (fun sp => sp.2)).Nodup :=
      (hperm.nodup_iff).mpr hnd
    obtain ⟨bytes, hbytes⟩ :=
      Option.isSome_iff_exists.mp (hr sb.2 hbest_mem)
    have hsb : shaOf env fs sb.2 = some (env.shaFn bytes) := by
      unfold shaOf
      rw [hbytes]
      rfl
    obtain ⟨fs', hF⟩ := handleLoop_all_sha env dupdir interactive autoTag
      (os.map (fun sp => sp.2)) fs sb.2 [] (env.shaFn bytes)
      (hr sb.2 hbest_mem) hsb
      (List.nodup_cons.mp hnd').1 (List.nodup_cons.mp hnd').2
      (fun p hp => by
        have hpmem : p ∈ cluster :=
          hperm.mem_iff.mp (List.mem_cons.mpr (Or.inr hp))
        refine ⟨hr p hpmem, ?_⟩
        rw [hsha p hpmem sb.2 hbest_mem, hsb])
    refine ⟨fs', sb.2, os.map (fun sp => sp.2), hperm, ?_⟩
    rw [hsort]
    show handleLoop env dupdir interactive autoTag fs sb.2
        (os.map (fun sp : ℚ × String => sp.2)) [] = _
    rw [hF]
    rfl
  constructor
  · obtain ⟨fs', best, others, hperm, hmain⟩ := main env.scoreImg "AUTO_IMG"
    exact ⟨fs', best, others, hperm, by rw [handle_image_cluster]; exact hmain⟩
  · obtain ⟨fs', best, others, hperm, hmain⟩ := main env.scoreVid "AUTO_VID"
    exact ⟨fs', best, others, hperm, by rw [handle_video_cluster]; exact hmain⟩

/-- **C3 witness.** A concrete two-member cluster of bit-identical files,
reviewed in interactive mode, is resolved automatically. -/
theorem exact_duplicates_auto_resolved_witness :
    ∃ fs' best others, List.Perm (best :: others) ["a", "b"] ∧
      handle_image_cluster envTwin fsTwin ["a", "b"] true "dup" 1 1 =
        .ok (fs', others.map
          (fun o => Event.moved "SHA" o (envTwin.moveDest "dup" o))) :=
  (exact_duplicates_auto_resolved envTwin fsTwin ["a", "b"] true "dup" 10 1 1
    (by decide) (by decide) (by decide) (by decide)).1

/-- **C5 evidence.** In `clustering.py`, the below-threshold skip in the
interactive path of `handle_image_cluster` / `handle_video_cluster`
evaluates `sim < threshold` with `threshold` unbound (no parameter, no
module global), so reviewing a readable non-identical pair raises
`NameError` instead of silently skipping: the embedded handlers return
the `nameErrorThreshold` failure on such a cluster. -/
theorem below_threshold_interactive_name_error :
    handle_image_cluster envDiff fsDiff ["a", "b"] true "dup" 1 1 =
        .error .nameErrorThreshold ∧
      handle_video_cluster envDiff fsDiff ["a", "b"] true "dup" 10 1 1 =
        .error .nameErrorThreshold := by
  constructor
  · rfl
  · rfl

/-! ### Web review session (claims C4, C6, C7) -/

theorem getD_set_self {β : Type} :
    ∀ (l : List β) (n : Nat) (a d : β), n < l.length →
      (l.set n a).getD n d = a := by
  intro l
  induction l with
  | nil => intro n a d h; simp at h
  | cons b t ih =>
    intro n a d h
    cases n with
    | zero => rfl
    | succ n =>
      show (t.set n a).getD n d = a
      exact ih n a d (by simpa using h)

theorem getLast?_pushHistory (h : List HistEntry) (e : HistEntry) :
    (pushHistory h e).getLast? = some e := by
  unfold pushHistory
  by_cases hl : 10 < (h ++ [e]).length
  · rw [if_pos hl]
    cases h with
    | nil => simp at hl
    | cons x h' =>
      show ((x :: h' ++ [e]).drop 1).getLast? = some e
      simp only [List.cons_append, List.drop_succ_cons, List.drop_zero]
      exact List.getLast?_concat _
  · rw [if_neg hl]
    exact List.getLast?_concat _

/-- **C4 counterexample.** In the web app a `skip` decision does *not*
leave the pair in the cluster's member list: on the session holding the
single cluster `["a", "b"]`, `handle_decision "skip"` moves no file but
shrinks the member list to `["a"]`. -/
theorem skip_removes_member_counterexample :
    ((handle_decision envTwin fsTwin stPair "skip").map
        (fun r => ((r.2.clusters.getD 0 ⟨"", []⟩).files, r.2.history.length)) =
      .ok (["a"], 1)) ∧
      (stPair.clusters.getD 0 ⟨"", []⟩).files = ["a", "b"] := by
  constructor
  · rfl
  · rfl

/-- **C4 amended.** A `skip` decision moves no file but pops the
right-hand member from the cluster's member list (the action is recorded
in history); any choice other than `left`/`right`/`skip` (the web app
has no `keep-both` choice) changes nothing at all. -/
theorem skip_and_unknown_choice_semantics (env : Env)
    (fs : String → Option (List Nat)) (st : WebState) (l r : String)
    (rest : List String)
    (hidx : st.currentIndex < st.clusters.length)
    (hfiles : (st.clusters.getD st.currentIndex ⟨"", []⟩).files = l :: r :: rest) :
    (∃ st', handle_decision env fs st "skip" = .ok (fs, st') ∧
        (st'.clusters.getD st.currentIndex ⟨"", []⟩).files = l :: rest ∧
        st'.history = pushHistory st.history
          ⟨"skip", none, none, st.currentIndex, l :: r :: rest⟩) ∧
      (∃ st', handle_decision env fs st "both" = .ok (fs, st') ∧
        (st'.clusters.getD st.currentIndex ⟨"", []⟩).files = l :: r :: rest ∧
        st'.history = st.history ∧ st'.currentIndex = st.currentIndex) := by
  have hnot : ¬(st.clusters.length ≤ st.currentIndex) := not_le.mpr hidx
  constructor
  · refine ⟨{ st with
        clusters := st.clusters.set st.currentIndex
          { st.clusters.getD st.currentIndex ⟨"", []⟩ with files := l :: rest },
        currentIndex :=
          if (l :: rest).length < 2 then st.currentIndex + 1 else st.currentIndex,
        history := pushHistory st.history
          ⟨"skip", none, none, st.currentIndex, l :: r :: rest⟩ }, ?_, ?_, ?_⟩
    · simp only [handle_decision, hfiles]
      rw [if_neg hnot]
      rfl
    · rw [getD_set_self st.clusters st.currentIndex _ _ hidx]
    · rfl
  · refine ⟨{ st with
        clusters := st.clusters.set st.currentIndex
          { st.clusters.getD st.currentIndex ⟨"", []⟩ with files := l :: r :: rest },
        currentIndex := st.currentIndex,
        history := st.history }, ?_, ?_, ?_, ?_⟩
    · simp only [handle_decision, hfiles]
      rw [if_neg hnot]
      rfl
    · rw [getD_set_self st.clusters st.currentIndex _ _ hidx]
    · rfl
    · rfl

/-- **C4 amended witness.** -/
theorem skip_and_unknown_choice_semantics_witness :
    ∃ st', handle_decision envTwin fsTwin stPair "skip" = .ok (fsTwin, st') ∧
      (st'.clusters.getD 0 ⟨"", []⟩).files = ["a"] ∧
      st'.history = pushHistory stPair.history ⟨"skip", none, none, 0, ["a", "b"]⟩ :=
  (skip_and_unknown_choice_semantics envTwin fsTwin stPair "a" "b" []
    (by decide) (by decide)).1

/-- **C6.** A `keep-left` decision moves the right-hand file; the
immediately following undo restores the moved file's content at its
original path (the destination still exists at that point), restores the
cluster's member list to exactly its pre-decision contents, and restores
the cursor to the recorded cluster index. -/
theorem undo_after_keep_left (env : Env) (fs : String → Option (List Nat))
    (st : WebState) (l r : String) (rest : List String)
    (hidx : st.currentIndex < st.clusters.length)
    (hfiles : (st.clusters.getD st.currentIndex ⟨"", []⟩).files = l :: r :: rest)
    (hright : (fs r).isSome) :
    ∃ fs₁ st₁ fs₂ st₂,
      handle_decision env fs st "left" = .ok (fs₁, st₁) ∧
      undo_decision env fs₁ st₁ = .ok (fs₂, st₂) ∧
      st₂.currentIndex = st.currentIndex ∧
      (st₂.clusters.getD st.currentIndex ⟨"", []⟩).files = l :: r :: rest ∧
      fs₂ r = fs r := by
  have hnot : ¬(st.clusters.length ≤ st.currentIndex) := not_le.mpr hidx
  have hrnone : ¬((fs r).isNone : Prop) := by
    intro hcontra
    rw [Option.isNone_iff_eq_none] at hcontra
    rw [hcontra] at hright
    cases hright
  set dest := env.moveDest st.duplicatesDir r with hdest
  set fs₁ := fsMove fs r dest with hfs₁
  set st₁ : WebState :=
    { st with
      clusters := st.clusters.set st.currentIndex
        { st.clusters.getD st.currentIndex ⟨"", []⟩ with files := l :: rest },
      currentIndex :=
        if (l :: rest).length < 2 then st.currentIndex + 1 else st.currentIndex,
      history := pushHistory st.history
        ⟨"left", some r, some dest, st.currentIndex, l :: r :: rest⟩ } with hst₁
  have hstep : handle_decision env fs st "left" = .ok (fs₁, st₁) := by
    simp only [handle_decision, hfiles]
    rw [if_neg hnot]
    rw [if_neg hrnone]
    rfl
  have hlen₁ : st₁.clusters.length = st.clusters.length := by
    rw [hst₁]
    exact List.length_set st.clusters _ _
  have hlast : st₁.history.getLast? =
      some ⟨"left", some r, some dest, st.currentIndex, l :: r :: rest⟩ := by
    rw [hst₁]
    exact getLast?_pushHistory st.history _
  have hidx₁ : st.currentIndex < st₁.clusters.length := by
    rw [hlen₁]
    exact hidx
  have hdestSome : (fs₁ dest).isSome := by
    rw [hfs₁]
    unfold fsMove
    rw [if_pos rfl]
    exact hright
  have hundo : undo_decision env fs₁ st₁ = .ok
      (fsMove fs₁ dest r,
        { st₁ with
          currentIndex := st.currentIndex,
          clusters := st₁.clusters.set st.currentIndex
            { st₁.clusters.getD st.currentIndex ⟨"", []⟩ with
              files := l :: r :: rest },
          history := st₁.history.dropLast }) := by
    simp only [undo_decision, hlast]
    rw [if_pos hidx₁]
    rw [if_pos ⟨Or.inl trivial, hdestSome⟩]
  refine ⟨fs₁, st₁, fsMove fs₁ dest r, _, hstep, hundo, rfl, ?_, ?_⟩
  · rw [getD_set_self st₁.clusters st.currentIndex _ _ hidx₁]
  · show fsMove fs₁ dest r r = fs r
    unfold fsMove
    rw [if_pos rfl]
    rw [hfs₁]
    unfold fsMove
    rw [if_pos rfl]

/-- **C6 witness.** -/
theorem undo_after_keep_left_witness :
    ∃ fs₁ st₁ fs₂ st₂,
      handle_decision envTwin fsTwin stPair "left" = .ok (fs₁, st₁) ∧
      undo_decision envTwin fs₁ st₁ = .ok (fs₂, st₂) ∧
      st₂.currentIndex = stPair.currentIndex ∧
      (st₂.clusters.getD stPair.currentIndex ⟨"", []⟩).files = ["a", "b"] ∧
      fs₂ "b" = fsTwin "b" :=
  undo_after_keep_left envTwin fsTwin stPair "a" "b" []
    (by decide) (by decide) (by decide)

/-- **C7 counterexample.** The web entry point performs no threshold
validation: `start_scan` with the out-of-range threshold `3/2` stores it
and proceeds to scan, and the clustering pipeline happily runs with it
(exact duplicates are still grouped), so the invalid configuration is
not rejected before work starts. -/
theorem web_accepts_out_of_range_threshold :
    (start_scan stPair true (3 / 2)).status = "scanning" ∧
      (start_scan stPair true (3 / 2)).threshold = 3 / 2 ∧
      cluster_images envTwin ["a", "b"] (3 / 2) = [["a", "b"]] := by
  refine ⟨rfl, rfl, ?_⟩
  rfl

/-- **C7 amended.** Only the command-line entry point validates the
threshold: `main` rejects an explicit `--threshold` outside `[0, 1]`
before any scanning starts and accepts one inside it; the web entry
point `start_scan` stores whatever threshold it is given and starts the
scan. -/
theorem threshold_validation_semantics (t : ℚ) (i : Bool) (st : WebState) :
    (¬(0 ≤ t ∧ t ≤ 1) →
      validate_threshold (some t) i =
        .error "threshold must be between 0.0 and 1.0") ∧
      ((0 ≤ t ∧ t ≤ 1) → validate_threshold (some t) i = .ok t) ∧
      ((start_scan st true t).threshold = t ∧
        (start_scan st true t).status = "scanning") := by
  refine ⟨?_, ?_, rfl, rfl⟩
  · intro h
    simp only [validate_threshold]
    rw [if_neg h]
  · intro h
    simp only [validate_threshold]
    rw [if_pos h]

/-- **C7 amended witness.** -/
theorem threshold_validation_semantics_witness :
    validate_threshold (some (3 / 2)) true =
        .error "threshold must be between 0.0 and 1.0" ∧
      validate_threshold (some (89 / 100)) true = .ok (89 / 100) ∧
      (start_scan stPair true (3 / 2)).threshold = 3 / 2 :=
  ⟨(threshold_validation_semantics (3 / 2) true stPair).1 (by norm_num),
    (threshold_validation_semantics (89 / 100) true stPair).2.1 (by norm_num),
    (threshold_validation_semantics (3 / 2) true stPair).2.2.1⟩

end Medman
